import Mathlib

/-
Verification development for the local-knowledge-rag-mcp indexing and
retrieval engine.

The TypeScript sources are shallowly embedded as pure Lean functions:

* the PostgreSQL `embeddings` table is a `List EmbeddingRow`, and every
  repository operation (`VectorRepository` in schema.ts) becomes a pure
  list transformation;
* JavaScript numbers are idealized as real numbers (`ℝ`) for embedding
  vectors and similarity values, and as `Int`/`Nat` for timestamps,
  sizes and counters; 32-bit wraparound in the lock-key hash is made
  explicit with `toInt32`;
* asynchronous control flow becomes explicit state passing; the
  cancellation token is modelled by the index of the first token read
  that observes `true` (`cancelAt`), which is faithful because the
  controller used by the index manager only transitions from `false` to
  `true` during a run (`reset` is called only before a run starts);
* thrown exceptions become `Except` / sum-type results; the
  `exponential-backoff` library (`backOff` with `numOfAttempts = 5`)
  is modelled by a fuelled recursion with the exact retry predicate of
  `VectorManager.processEmbeddings`;
* the `async-mutex` `Mutex.runExclusive` used by index-manager.ts is
  modelled with its actual queueing semantics (waiters are enqueued in
  FIFO order; acquisition never fails);
* external collaborators (the glob scanner results, the langchain
  recursive splitter, the markdown/html/json extraction regexes, the
  embedding provider and the pgvector distance operator) enter the model
  as function parameters: the claims under proof quantify over them.
-/

/- ===================== Data model (schema.ts) ===================== -/

/-- Metadata column of an embeddings row (`VectorMetaData` in rag.types).
`skipped`, `reason`, `originalSize` are optional fields, present on
skipped-marker rows only. -/
structure VectorMetaData where
  startLine : Int
  endLine : Int
  skipped : Option Bool := none
  reason : Option String := none
  originalSize : Option Nat := none
deriving DecidableEq, Repr

/-- A row of the `embeddings` table (`InsertEmbedding`); the serial `id`
column is not modelled. -/
structure EmbeddingRow where
  workspaceId : String
  path : String
  mtime : Int
  content : String
  model : String
  dimension : Nat
  embedding : List ℝ
  metadata : VectorMetaData

/-- The embedding client capability consumed by the store
(`EmbeddingModelClient`): an id and a dimension. The `getEmbedding`
behaviour is supplied separately as attempt outcomes. -/
structure EmbeddingModelClient where
  id : String
  dimension : Nat
deriving DecidableEq, Repr

/-- Scanner output for one file (`FileInfo` in rag.types, flattened). -/
structure FileInfo where
  path : String
  mtime : Int
  size : Nat
deriving DecidableEq, Repr

/- ===================== Advisory lock (VectorRepository, C9) ===================== -/

-- JavaScript 32-bit signed integer conversion (the effect of `hash & hash`
-- and of `<<` in `workspaceIdToLockKey`).
def toInt32 (x : Int) : Int :=
  let r := x % 4294967296
  if r < 2147483648 then r else r - 4294967296

-- One step of the loop body `hash = ((hash << 5) - hash) + char; hash = hash & hash`.
def hashStep (h : Int) (c : Nat) : Int :=
  toInt32 (toInt32 (h * 32) - h + c)

-- The string hash loop of `VectorRepository.workspaceIdToLockKey`.
def jsStringHash (s : String) : Int :=
  s.toList.foldl (fun h ch => hashStep h ch.toNat) 0

-- `Math.abs(hash)`: the advisory lock key for a workspace id.
def workspaceIdToLockKey (workspaceId : String) : Int :=
  ((jsStringHash workspaceId).natAbs : Int)

/-- Observable lock actions issued to PostgreSQL. -/
inductive LockEvent where
  | acquire (key : Int)
  | release (key : Int)
deriving DecidableEq, Repr

/-- `VectorRepository.withAdvisoryLock`: acquire the key derived from the
workspace id, run `fn`, release in a `finally` block — so the release
happens on the error path as well as on the success path. The body is
modelled by its outcome `fn : Except ε α`. -/
def withAdvisoryLock (workspaceId : String) (fn : Except ε α) :
    List LockEvent × Except ε α :=
  let k := workspaceIdToLockKey workspaceId
  match fn with
  | Except.ok a => ([LockEvent.acquire k, LockEvent.release k], Except.ok a)
  | Except.error e => ([LockEvent.acquire k, LockEvent.release k], Except.error e)

/- ===================== In-process mutex (index-manager.ts, C1) ===================== -/

/-- Result recorded for one rebuild request at the console boundary:
`ranOk`/`ranError` are the MCP-style results produced after the handler
body actually ran; `busyResp` is the "operation already in progress"
rejection that the handler would return from its catch block. -/
inductive HandlerResult where
  | ranOk
  | ranError
  | busyResp
deriving DecidableEq, Repr

/-- External events driving the index-manager process model: a rebuild
request arrives (with the id of the request and whether its body will
succeed), or the currently running indexing operation finishes. -/
inductive IMEvent where
  | arrive (rid : Nat) (ok : Bool)
  | finishRun
deriving DecidableEq, Repr

/-- State of the `setRebuildIndexHandler` closure: which request holds the
`async-mutex` mutex, the FIFO queue of waiters maintained by
`Mutex.runExclusive`, and the log of responses sent so far. -/
structure IMState where
  running : Option (Nat × Bool)
  queue : List (Nat × Bool)
  log : List (Nat × HandlerResult)
deriving DecidableEq, Repr

/-- One step of the index-manager rebuild handler under the semantics of
`async-mutex`: `runExclusive` acquires the mutex immediately when it is
free and otherwise appends the caller to the waiter queue; it never
rejects while the mutex is held, so the catch branch producing
`busyResp` is unreachable. When a run finishes its response is logged
and the next waiter (if any) starts running. -/
def stepIM (s : IMState) : IMEvent → IMState
  | IMEvent.arrive rid ok =>
    match s.running with
    | none => { s with running := some (rid, ok) }
    | some _ => { s with queue := s.queue ++ [(rid, ok)] }
  | IMEvent.finishRun =>
    match s.running with
    | none => s
    | some (rid, ok) =>
      let entry := (rid, if ok then HandlerResult.ranOk else HandlerResult.ranError)
      match s.queue with
      | [] => { running := none, queue := [], log := s.log ++ [entry] }
      | next :: rest => { running := some next, queue := rest, log := s.log ++ [entry] }

/-- Run the index-manager model from the initial state (mutex free). -/
def runIM (evs : List IMEvent) : IMState :=
  evs.foldl stepIM { running := none, queue := [], log := [] }

/- ===================== Embedding client errors and retry (C3) ===================== -/

/-- Errors observable by the retry predicate in
`VectorManager.processEmbeddings`: either a raw JavaScript error with an
optional HTTP `status` field (this is also how the internal
`new Error('Cancelled')` appears: no status), or an `EmbeddingError`
instance as constructed by the embedding clients. -/
inductive JsError where
  | raw (status : Option Nat) (msg : String)
  | embeddingErr (msg : String) (provider : String)
deriving DecidableEq, Repr

-- `error.status` as read by the retry callback (EmbeddingError carries no status).
def jsErrorStatus : JsError → Option Nat
  | JsError.raw s _ => s
  | JsError.embeddingErr _ _ => none

-- `error instanceof EmbeddingError`.
def isEmbeddingError : JsError → Bool
  | JsError.raw _ _ => false
  | JsError.embeddingErr _ _ => true

-- `error.message`, used by the outer catch to recognize cancellation.
def jsErrorMessage : JsError → String
  | JsError.raw _ m => m
  | JsError.embeddingErr m _ => m

/-- The retry callback of the `backOff` options in
`VectorManager.processEmbeddings` (schema.ts): retry iff
`error.status === 429 || error instanceof EmbeddingError`. -/
def retryPredicate (e : JsError) : Bool :=
  jsErrorStatus e == some 429 || isEmbeddingError e

/-- The catch clause of `OpenAIEmbeddingClient.getEmbedding`
(embedding-client.ts): every provider failure is rethrown as an
`EmbeddingError`; HTTP 401 (invalid credentials) becomes the
invalid-key message, HTTP 429 the rate-limit message. -/
def openAIWrapError (status : Nat) (msg : String) : JsError :=
  if status == 401 then
    JsError.embeddingErr ("OpenAI API key is invalid. Please update it in configuration.") ("openai")
  else if status == 429 then
    JsError.embeddingErr ("OpenAI API rate limit exceeded. Please try again later.") ("openai")
  else
    JsError.embeddingErr ("OpenAI embedding failed: " ++ msg) ("openai")

/-- Outcome of one provider attempt for one chunk, as seen by the code
inside `backOff` after `getEmbedding` resolves or throws. -/
inductive AttemptResult where
  | ok (v : List ℝ)
  | err (e : JsError)

/- ===================== Cosine similarity (VectorRepository, C10) ===================== -/

-- The running sums of the loop in `calculateCosineSimilarity`.
def dotProduct (a b : List ℝ) : ℝ := (List.zipWith (fun x y => x * y) a b).sum

def sumSquares (a : List ℝ) : ℝ := (a.map (fun x => x * x)).sum

/-- `VectorRepository.calculateCosineSimilarity` (schema.ts): throws when
the lengths differ, returns 0 when either magnitude is zero, otherwise
the cosine. JavaScript floats are idealized as real numbers. -/
noncomputable def calculateCosineSimilarity (vectorA vectorB : List ℝ) :
    Except String ℝ :=
  if vectorA.length ≠ vectorB.length then
    Except.error ("Vector dimensions must match")
  else
    let dot := dotProduct vectorA vectorB
    let magnitudeA := Real.sqrt (sumSquares vectorA)
    let magnitudeB := Real.sqrt (sumSquares vectorB)
    if magnitudeA = 0 ∨ magnitudeB = 0 then Except.ok 0
    else Except.ok (dot / (magnitudeA * magnitudeB))

/- ===================== Chunker (chunk-utils, C4) ===================== -/

-- JavaScript `content.split('\n')`: one part per newline boundary, never empty.
def splitNl : List Char → List (List Char)
  | [] => [[]]
  | c :: rest =>
    if c = '\n' then [] :: splitNl rest
    else
      match splitNl rest with
      | [] => [[c]]
      | h :: t => (c :: h) :: t

def jsSplitNl (s : String) : List String :=
  (splitNl s.toList).map (fun l => String.mk l)

-- The inner loop of `calculateLineNumbers`: do lines i..i+|chunk|-1 equal the chunk lines.
def linesMatchAt (lines chunkLines : List String) (i : Nat) : Bool :=
  (lines.drop i).take chunkLines.length == chunkLines

/-- `TextChunker.calculateLineNumbers`: find the first window of source
lines equal to the chunk lines; 1-based `(startLine, endLine)`, with
`(1, 1)` when no window matches (also when the chunk has more lines than
the source, in which case the JS loop body never runs). -/
def calculateLineNumbers (originalContent chunkContent : String) : Int × Int :=
  let lines := jsSplitNl originalContent
  let chunkLines := jsSplitNl chunkContent
  if chunkLines.length ≤ lines.length then
    match (List.range (lines.length - chunkLines.length + 1)).find?
        (linesMatchAt lines chunkLines) with
    | some i => ((i : Int) + 1, (i : Int) + chunkLines.length)
    | none => (1, 1)
  else (1, 1)

/-- A chunk of file content with its metadata (`ContentChunk`). -/
structure ContentChunk where
  path : String
  mtime : Int
  content : String
  metadata : VectorMetaData
deriving DecidableEq, Repr

/-- `TextChunker.createChunks`: split the content (the langchain
recursive splitter is external and enters as the parameter `split`;
`none` models a splitter exception, taken to the single-chunk fallback
whose line range is 1..number-of-lines). -/
def createChunks (split : String → Option (List String))
    (content filePath : String) (mtime : Int) : List ContentChunk :=
  match split content with
  | some docs =>
    docs.map (fun doc =>
      let ln := calculateLineNumbers content doc
      { path := filePath, mtime := mtime, content := doc,
        metadata := { startLine := ln.1, endLine := ln.2 } })
  | none =>
    [{ path := filePath, mtime := mtime, content := content,
       metadata := { startLine := 1, endLine := ((jsSplitNl content).length : Int) } }]

/-- One entry of the `fileContents` array in `prepareContentChunks`. -/
structure FileContent where
  path : String
  content : String
  mtime : Int
deriving DecidableEq, Repr

/-- `TextChunker.createChunksForFiles`: concatenation preserving order. -/
def createChunksForFiles (split : String → Option (List String))
    (files : List FileContent) : List ContentChunk :=
  (files.map (fun f => createChunks split f.content f.path f.mtime)).flatten

-- `TextChunker.sanitizeContent`, piecewise.
def removeNulChars (l : List Char) : List Char :=
  l.filter (fun c => c ≠ Char.ofNat 0)

def normalizeNewlines : List Char → List Char
  | [] => []
  | '\r' :: '\n' :: t => '\n' :: normalizeNewlines t
  | '\r' :: t => '\n' :: normalizeNewlines t
  | c :: t => c :: normalizeNewlines t

def countLeadingNl : List Char → Nat
  | '\n' :: t => countLeadingNl t + 1
  | _ => 0

-- `/\n{4,}/g → '\n\n\n'`: cap every newline run at three.
def collapseNewlinesFuel : Nat → List Char → List Char
  | 0, _ => []
  | _, [] => []
  | fuel + 1, c :: t =>
    if c = '\n' then
      let n := countLeadingNl (c :: t)
      List.replicate (min n 3) '\n' ++ collapseNewlinesFuel fuel (List.drop n (c :: t))
    else c :: collapseNewlinesFuel fuel t

def collapseNewlines (l : List Char) : List Char :=
  collapseNewlinesFuel l.length l

-- JavaScript `String.prototype.trim` (whitespace idealized to the ASCII
-- set recognized by `Char.isWhitespace`).
def jsTrimList (l : List Char) : List Char :=
  ((l.dropWhile Char.isWhitespace).reverse.dropWhile Char.isWhitespace).reverse

def jsTrim (s : String) : String :=
  String.mk (jsTrimList s.toList)

def sanitizeChunkContent (content : String) : String :=
  jsTrim (String.mk (collapseNewlines (normalizeNewlines (removeNulChars content.toList))))

/-- `TextChunker.validateChunk`: reject empty-after-trim, NUL bytes, and
chunks longer than twice the configured chunk size. -/
def validateChunk (chunkSize : Nat) (chunk : ContentChunk) : Bool :=
  if (jsTrim chunk.content).length == 0 then false
  else if chunk.content.toList.contains (Char.ofNat 0) then false
  else if chunk.content.length > chunkSize * 2 then false
  else true

/-- `TextChunker.processChunks`: sanitize contents (metadata untouched),
then keep only valid chunks. -/
def processChunks (chunkSize : Nat) (chunks : List ContentChunk) : List ContentChunk :=
  (chunks.map (fun c => { c with content := sanitizeChunkContent c.content })).filter
    (validateChunk chunkSize)

/- ===================== File reading and skip detection (VectorManager, C6) ===================== -/

/-- A file on disk as the scanner and reader see it; `readable = false`
models a thrown read error. `content` is the raw file content. -/
structure DiskFile where
  path : String
  mtime : Int
  size : Nat
  content : String
  readable : Bool
deriving DecidableEq, Repr

def toFileInfo (f : DiskFile) : FileInfo :=
  { path := f.path, mtime := f.mtime, size := f.size }

structure SkippedFile where
  path : String
  reason : String
  size : Nat
deriving DecidableEq, Repr

structure FailedFile where
  path : String
  err : String
  size : Nat
deriving DecidableEq, Repr

/-- The read loop of `VectorManager.prepareContentChunks`. The composed
text extraction and sanitization (extractTextContent, sanitizeContent,
cleanTextForEmbedding — regex-based, external to the claims) enters as
the parameter `process`. A file whose processed content trims to empty
is recorded as skipped with the source reasons. -/
def readFiles (process : String → String) :
    List DiskFile → List FailedFile × List SkippedFile × List FileContent
  | [] => ([], [], [])
  | f :: rest =>
    let (fl, sk, fc) := readFiles process rest
    if !f.readable then
      ({ path := f.path, err := "read error", size := f.size } :: fl, sk, fc)
    else
      let c := process f.content
      if (jsTrim c).length == 0 then
        let reason :=
          if f.size == 0 then "File is empty (size: 0 bytes)"
          else "File contains no indexable content after processing"
        (fl, { path := f.path, reason := reason, size := f.size } :: sk, fc)
      else
        (fl, sk, { path := f.path, content := c, mtime := f.mtime } :: fc)

structure PrepResult where
  contentChunks : List ContentChunk
  failedFiles : List FailedFile
  skippedFiles : List SkippedFile

-- The skip record that `readFiles` pushes for an empty-after-processing file.
def skRecord (f : DiskFile) : SkippedFile :=
  { path := f.path,
    reason :=
      if f.size == 0 then "File is empty (size: 0 bytes)"
      else "File contains no indexable content after processing",
    size := f.size }

/-- `VectorManager.prepareContentChunks`: read all files, chunk the
non-empty ones, sanitize and validate the chunks. -/
def prepareContentChunks (process : String → String)
    (split : String → Option (List String)) (chunkSize : Nat)
    (files : List DiskFile) : PrepResult :=
  let r := readFiles process files
  { contentChunks := processChunks chunkSize (createChunksForFiles split r.2.2),
    failedFiles := r.1, skippedFiles := r.2.1 }

/-- The skipped-marker row built by `VectorManager.recordSkippedFiles`:
zero vector of the model dimension, fixed content, `skipped = true`,
and `startLine = endLine = 0`. -/
def mkSkippedRow (wid : String) (model : EmbeddingModelClient)
    (sk : SkippedFile) (fi : FileInfo) : EmbeddingRow :=
  { workspaceId := wid, path := sk.path, mtime := fi.mtime,
    content := "[SKIPPED: No indexable content]",
    model := model.id, dimension := model.dimension,
    embedding := List.replicate model.dimension 0,
    metadata := { startLine := 0, endLine := 0, skipped := some true,
                  reason := some sk.reason, originalSize := some sk.size } }

-- `new Map(allFiles.map(f => [f.path, f]))`: the last entry per path wins.
def fileMapLookup (allFiles : List FileInfo) (p : String) : Option FileInfo :=
  allFiles.reverse.find? (fun f => f.path == p)

/-- `VectorManager.recordSkippedFiles`: one dummy row per skipped file
whose FileInfo is found; files missing from the map are dropped with a
warning. -/
def recordSkippedFiles (wid : String) (model : EmbeddingModelClient)
    (skippedFiles : List SkippedFile) (allFiles : List FileInfo) : List EmbeddingRow :=
  skippedFiles.filterMap (fun sk =>
    match fileMapLookup allFiles sk.path with
    | none => none
    | some fi => some (mkSkippedRow wid model sk fi))

/- ===================== Repository operations (VectorRepository) ===================== -/

-- The (workspace_id, model) scope predicate shared by the repository queries.
def rowInScope (wid mid : String) (r : EmbeddingRow) : Bool :=
  r.workspaceId == wid && r.model == mid

-- `[...new Set(xs)]`: drop later duplicates, keeping first occurrences.
def dedupKeepFirst [BEq α] : List α → List α
  | [] => []
  | a :: t => a :: (dedupKeepFirst t).filter (fun b => !(b == a))

def getIndexedFilePaths (st : List EmbeddingRow) (wid mid : String) : List String :=
  dedupKeepFirst ((st.filter (rowInScope wid mid)).map (fun r => r.path))

def deleteVectorsForMultipleFiles (st : List EmbeddingRow) (wid : String)
    (filePaths : List String) (mid : String) : List EmbeddingRow :=
  if filePaths.isEmpty then st
  else st.filter (fun r => !(rowInScope wid mid r && filePaths.contains r.path))

def insertVectors (st rows : List EmbeddingRow) : List EmbeddingRow :=
  st ++ rows

def clearAllVectors (st : List EmbeddingRow) (wid mid : String) : List EmbeddingRow :=
  st.filter (fun r => !(rowInScope wid mid r))

def deleteVectorsForDeletedFiles (st : List EmbeddingRow) (wid : String)
    (existingFilePaths : List String) (mid : String) : List EmbeddingRow :=
  if existingFilePaths.isEmpty then clearAllVectors st wid mid
  else st.filter (fun r => !(rowInScope wid mid r && !existingFilePaths.contains r.path))

def rowsForFile (st : List EmbeddingRow) (wid mid p : String) : List EmbeddingRow :=
  st.filter (fun r => rowInScope wid mid r && r.path == p)

/-- `VectorRepository.getFileModificationTimes`: per path, the running
maximum of row mtimes, starting from 0 and replacing only on strict
increase — so rows with mtime ≤ 0 never register, and the source map
has no entry for such paths. The absent-entry case and a 0 entry are
indistinguishable downstream (`!indexedMtime` in getFilesToReindex), so
absence is encoded as 0. -/
def getFileModificationTimes (st : List EmbeddingRow) (wid : String)
    (filePaths : List String) (mid : String) (p : String) : Int :=
  if filePaths.contains p then
    (rowsForFile st wid mid p).foldl (fun acc r => if r.mtime > acc then r.mtime else acc) 0
  else 0

/-- `FileSystemUtils.getFilesToReindex`: drop size-0 files; keep a file
when its stored mtime is falsy (absent / 0) or the on-disk mtime is
strictly newer. -/
def getFilesToReindex (allFiles : List FileInfo) (indexedMtime : String → Int) :
    List FileInfo :=
  allFiles.filter (fun f =>
    if f.size == 0 then false
    else
      let m := indexedMtime f.path
      m == 0 || decide (f.mtime > m))

/-- `VectorManager.getFilesToIndex`: wire the scanner output through the
stored modification times. -/
def getFilesToIndexModel (allFiles : List FileInfo) (st : List EmbeddingRow)
    (wid : String) (model : EmbeddingModelClient) : List FileInfo :=
  let indexedFilePaths := getIndexedFilePaths st wid model.id
  getFilesToReindex allFiles (getFileModificationTimes st wid indexedFilePaths model.id)

/- ===================== Similarity search (VectorRepository, C6/C7) ===================== -/

-- SQL `metadata->>'skipped' IS NULL OR metadata->>'skipped' != 'true'`.
def skippedCondition (m : VectorMetaData) : Bool :=
  match m.skipped with
  | some true => false
  | _ => true

/-- The `whereConditions` array of `performSimilaritySearch`: workspace,
dimension and model equality, the skipped-row exclusion, and the
optional exact-path scope (pushed only when non-empty). -/
def whereConditions (wid : String) (model : EmbeddingModelClient)
    (scopeFiles : Option (List String)) (r : EmbeddingRow) : Bool :=
  r.workspaceId == wid && r.dimension == model.dimension && r.model == model.id &&
    skippedCondition r.metadata &&
    (match scopeFiles with
     | some fs => if fs.isEmpty then true else fs.contains r.path
     | none => true)

/-- `performSimilaritySearchWithPgvector`: the database orders by the
external cosine-distance operator (parameter `dist`), fetches
`limit * 2` candidates, converts distance to similarity, prunes below
the threshold and slices to `limit`. -/
noncomputable def performSimilaritySearchWithPgvector (dist : List ℝ → ℝ)
    (rows : List EmbeddingRow) (minSimilarity : ℝ) (limit : Nat) :
    List (EmbeddingRow × ℝ) :=
  let sorted := rows.mergeSort (fun a b => decide (dist a.embedding ≤ dist b.embedding))
  ((sorted.take (limit * 2)).filterMap (fun r =>
    let similarity := 1 - dist r.embedding
    if similarity < minSimilarity then none else some (r, similarity))).take limit

-- The `.map` over rows in the JSONB branch; a dimension mismatch inside
-- `calculateCosineSimilarity` aborts the whole search (thrown error).
noncomputable def jsMapSims (queryEmbedding : List ℝ) :
    List EmbeddingRow → Except String (List (EmbeddingRow × ℝ))
  | [] => Except.ok []
  | r :: t =>
    match calculateCosineSimilarity queryEmbedding r.embedding with
    | Except.error e => Except.error e
    | Except.ok s =>
      match jsMapSims queryEmbedding t with
      | Except.error e => Except.error e
      | Except.ok rest => Except.ok ((r, s) :: rest)

/-- `performSimilaritySearchWithJavaScript`: in-memory cosine, threshold
filter, sort by descending similarity, slice to `limit`. -/
noncomputable def performSimilaritySearchWithJavaScript (queryEmbedding : List ℝ)
    (rows : List EmbeddingRow) (minSimilarity : ℝ) (limit : Nat) :
    Except String (List (EmbeddingRow × ℝ)) :=
  match jsMapSims queryEmbedding rows with
  | Except.error e => Except.error e
  | Except.ok withSims =>
    Except.ok (((withSims.filter (fun p => decide (minSimilarity ≤ p.2))).mergeSort
      (fun a b => decide (b.2 ≤ a.2))).take limit)

/-- `VectorRepository.performSimilaritySearch`: build the where-filter,
then dispatch on the detected column type (`columnIsVector`). -/
noncomputable def performSimilaritySearch (columnIsVector : Bool) (dist : List ℝ → ℝ)
    (wid : String) (queryEmbedding : List ℝ) (model : EmbeddingModelClient)
    (minSimilarity : ℝ) (limit : Nat) (scopeFiles : Option (List String))
    (st : List EmbeddingRow) : Except String (List (EmbeddingRow × ℝ)) :=
  let rows := st.filter (whereConditions wid model scopeFiles)
  if columnIsVector then
    Except.ok (performSimilaritySearchWithPgvector dist rows minSimilarity limit)
  else
    performSimilaritySearchWithJavaScript queryEmbedding rows minSimilarity limit

def okResults : Except String (List (EmbeddingRow × ℝ)) → List (EmbeddingRow × ℝ)
  | Except.ok l => l
  | Except.error _ => []

/- ===================== Schema dimension validation (C2) ===================== -/

structure SchemaValidation where
  valid : Bool
  schemaDimension : Option Nat
  embeddingDimension : Nat
  message : Option String
deriving DecidableEq, Repr

/-- `VectorManager.validateSchemaDimension`: invalid when the table is
absent or the declared vector length differs from the model dimension.
The caller `RAGEngine.validateSchemaDimension` only logs the message as
a warning; no indexing path consults this result. -/
def validateSchemaDimension (schemaDimension : Option Nat)
    (embeddingDimension : Nat) : SchemaValidation :=
  match schemaDimension with
  | none =>
    { valid := false, schemaDimension := none, embeddingDimension := embeddingDimension,
      message := some ("Database schema not initialized. Please run schema initialization.") }
  | some d =>
    if d ≠ embeddingDimension then
      { valid := false, schemaDimension := some d, embeddingDimension := embeddingDimension,
        message := some ("Schema dimension mismatch: database expects vector(" ++ toString d ++
          "), but embedding model produces " ++ toString embeddingDimension ++ " dimensions.") }
    else
      { valid := true, schemaDimension := some d,
        embeddingDimension := embeddingDimension, message := none }

/- ===================== Embedding loop (VectorManager.processEmbeddings, C5) ===================== -/

/-- Where a cancellation-token read happens: before a batch, at the start
of one chunk task, before the provider call, after the provider call,
after the whole batch resolves, and after the database insert. -/
inductive CheckKind where
  | preBatch
  | preChunk
  | preCall
  | postCall
  | postBatch
  | postInsert
deriving DecidableEq, Repr

/-- Observable events of the embedding loop: a token read with the value
it observed, or a batch insert into the store. -/
inductive PEEvent where
  | check (k : CheckKind) (v : Bool)
  | insertEv (rows : List EmbeddingRow)

/-- The cancellation token, modelled by the index of the first read that
observes `true` (`none` = never cancelled). The controller is monotone
during a run: `cancel()` only sets the flag and `reset()` runs only
before a run starts, so once a read observes `true` every later read
does too. -/
def isCanc (cancelAt : Option Nat) (q : Nat) : Bool :=
  match cancelAt with
  | none => false
  | some c => decide (c ≤ q)

/-- Result of one chunk task inside a batch: an embedding vector, a
cancellation (`null` without failure record), or a permanent failure
(recorded in `failedChunks`). -/
inductive ChunkRes where
  | vec (v : List ℝ)
  | canc
  | failedRes (msg : String)

/-- The `backOff` call around one chunk embedding, with
`numOfAttempts = 5` and the retry predicate from the source. Each
attempt reads the token before the provider call (throwing `Cancelled`,
which the retry predicate never retries) and, on success, again before
updating the counters. `outcomes n` is the provider behaviour on
attempt `n`; the fuel is 5, enough for the attempt bound. Arguments:
attempt number, next read index, fuel. -/
def backOffChunk (cancelAt : Option Nat) (outcomes : Nat → AttemptResult) :
    Nat → Nat → Nat → List PEEvent × Nat × ChunkRes
  | _, q, 0 => ([], q, ChunkRes.failedRes ("out of fuel"))
  | attempt, q, fuel + 1 =>
    let v1 := isCanc cancelAt q
    if v1 then ([PEEvent.check CheckKind.preCall v1], q + 1, ChunkRes.canc)
    else
      match outcomes attempt with
      | AttemptResult.ok vec =>
        let v2 := isCanc cancelAt (q + 1)
        if v2 then
          ([PEEvent.check CheckKind.preCall v1, PEEvent.check CheckKind.postCall v2],
            q + 2, ChunkRes.canc)
        else
          ([PEEvent.check CheckKind.preCall v1, PEEvent.check CheckKind.postCall v2],
            q + 2, ChunkRes.vec vec)
      | AttemptResult.err e =>
        if attempt < 5 && retryPredicate e then
          let r := backOffChunk cancelAt outcomes (attempt + 1) (q + 1) fuel
          (PEEvent.check CheckKind.preCall v1 :: r.1, r.2.1, r.2.2)
        else
          ([PEEvent.check CheckKind.preCall v1], q + 1, ChunkRes.failedRes (jsErrorMessage e))

/-- The row built from a successfully embedded chunk (the return value
inside `backOff` in `processEmbeddings`). -/
def mkChunkRow (wid : String) (model : EmbeddingModelClient)
    (c : ContentChunk) (v : List ℝ) : EmbeddingRow :=
  { workspaceId := wid, path := c.path, mtime := c.mtime, content := c.content,
    model := model.id, dimension := model.dimension, embedding := v,
    metadata := c.metadata }

/-- One chunk task of the batch `Promise.all`: the map-entry token read,
then the retried embedding; returns the optional row and the optional
failure record (a cancellation produces neither). -/
def processChunkModel (cancelAt : Option Nat) (wid : String)
    (model : EmbeddingModelClient) (outcomes : Nat → AttemptResult)
    (c : ContentChunk) (q : Nat) :
    List PEEvent × Nat × Option EmbeddingRow × Option String :=
  let v0 := isCanc cancelAt q
  if v0 then ([PEEvent.check CheckKind.preChunk v0], q + 1, none, none)
  else
    match backOffChunk cancelAt outcomes 1 (q + 1) 5 with
    | (evts, qq, ChunkRes.vec v) =>
      (PEEvent.check CheckKind.preChunk v0 :: evts, qq, some (mkChunkRow wid model c v), none)
    | (evts, qq, ChunkRes.canc) =>
      (PEEvent.check CheckKind.preChunk v0 :: evts, qq, none, none)
    | (evts, qq, ChunkRes.failedRes _) =>
      (PEEvent.check CheckKind.preChunk v0 :: evts, qq, none, some c.path)

/-- The batch body, linearized chunk by chunk (the `Promise.all` fan-out
is bounded and the token is monotone, so any interleaving observes the
same claim-relevant behaviour). Chunks carry their global index so each
one gets its own provider outcome sequence. -/
def processBatchChunks (cancelAt : Option Nat) (wid : String)
    (model : EmbeddingModelClient) (outcomesFor : Nat → Nat → AttemptResult) :
    List (Nat × ContentChunk) → Nat →
    List PEEvent × Nat × List EmbeddingRow × List String
  | [], q => ([], q, [], [])
  | (idx, c) :: rest, q =>
    let r1 := processChunkModel cancelAt wid model (outcomesFor idx) c q
    let r2 := processBatchChunks cancelAt wid model outcomesFor rest r1.2.1
    (r1.1 ++ r2.1, r2.2.1,
      (match r1.2.2.1 with
       | some row => row :: r2.2.2.1
       | none => r2.2.2.1),
      (match r1.2.2.2 with
       | some p => p :: r2.2.2.2
       | none => r2.2.2.2))

-- `for (i = 0; i < chunks.length; i += batchSize)` slicing.
def toBatchesFuel : Nat → Nat → List α → List (List α)
  | _, _, [] => []
  | 0, _, l => [l]
  | fuel + 1, n, l => l.take n :: toBatchesFuel fuel n (l.drop n)

def toBatches (n : Nat) (l : List α) : List (List α) :=
  toBatchesFuel l.length n l

/-- Terminal outcome of `processEmbeddings`: normal return
(`wasCancelled = false`), cancelled return (`wasCancelled = true`), or
the `IndexingError` thrown when `failedChunks` is non-empty. -/
inductive PEOutcome where
  | completed
  | cancelled
  | failedOutcome (failedPaths : List String)

/-- The batch loop of `processEmbeddings`. Per batch: token read before
the batch (immediate cancelled return), the chunk tasks, the token read
after the batch resolves (cancelled return, dropping the resolved rows
without inserting), the insert of the non-null rows, the token read
after the insert (cancelled return), then the next batch. At the end,
accumulated chunk failures raise the indexing error. -/
def processBatchesModel (cancelAt : Option Nat) (wid : String)
    (model : EmbeddingModelClient) (outcomesFor : Nat → Nat → AttemptResult) :
    List (List (Nat × ContentChunk)) → Nat → List EmbeddingRow → List String →
    List PEEvent × List EmbeddingRow × PEOutcome
  | [], _, store, fails =>
    ([], store,
      if fails.isEmpty then PEOutcome.completed else PEOutcome.failedOutcome fails)
  | b :: rest, q, store, fails =>
    let v := isCanc cancelAt q
    if v then ([PEEvent.check CheckKind.preBatch v], store, PEOutcome.cancelled)
    else
      let rb := processBatchChunks cancelAt wid model outcomesFor b (q + 1)
      let q1 := rb.2.1
      let rows := rb.2.2.1
      let v2 := isCanc cancelAt q1
      if v2 then
        (PEEvent.check CheckKind.preBatch v :: rb.1 ++ [PEEvent.check CheckKind.postBatch v2],
          store, PEOutcome.cancelled)
      else
        let insEvts : List PEEvent := if rows.isEmpty then [] else [PEEvent.insertEv rows]
        let store2 := if rows.isEmpty then store else insertVectors store rows
        let v3 := isCanc cancelAt (q1 + 1)
        if v3 then
          (PEEvent.check CheckKind.preBatch v :: rb.1 ++
              PEEvent.check CheckKind.postBatch v2 :: insEvts ++
              [PEEvent.check CheckKind.postInsert v3],
            store2, PEOutcome.cancelled)
        else
          let rr := processBatchesModel cancelAt wid model outcomesFor rest (q1 + 2)
            store2 (fails ++ rb.2.2.2)
          (PEEvent.check CheckKind.preBatch v :: rb.1 ++
              PEEvent.check CheckKind.postBatch v2 :: insEvts ++
              PEEvent.check CheckKind.postInsert v3 :: rr.1,
            rr.2.1, rr.2.2)

/-- `VectorManager.processEmbeddings`: batches of 10, starting from read
index `q0` with an empty failure list. -/
def processEmbeddingsModel (cancelAt : Option Nat) (wid : String)
    (model : EmbeddingModelClient) (outcomesFor : Nat → Nat → AttemptResult)
    (contentChunks : List ContentChunk) (q0 : Nat) (store : List EmbeddingRow) :
    List PEEvent × List EmbeddingRow × PEOutcome :=
  processBatchesModel cancelAt wid model outcomesFor (toBatches 10 contentChunks.enum) q0 store []

/- ===================== Update pipeline (VectorManager.updateVaultIndexInternal) ===================== -/

/-- Inputs of one `updateVaultIndex` invocation. The scanner result is
`disk` (glob matching is external); `process` and `split` stand for the
external text extraction and the langchain splitter; `outcomesFor`
gives the embedding provider behaviour per chunk index and attempt. -/
structure UpdateEnv where
  wid : String
  model : EmbeddingModelClient
  disk : List DiskFile
  process : String → String
  split : String → Option (List String)
  chunkSize : Nat
  outcomesFor : Nat → Nat → AttemptResult
  cancelAt : Option Nat
  reindexAll : Bool

inductive UpdateOutcome where
  | completed
  | cancelled
  | errored (msg : String)
deriving DecidableEq, Repr

/-- `VectorManager.deleteVectorsForDeletedFiles` (the private wrapper):
drop rows whose path no longer exists on disk or no longer matches the
patterns (here: is no longer in the scanner output). -/
def pruneDeletedFiles (env : UpdateEnv) (st : List EmbeddingRow) : List EmbeddingRow :=
  let indexedFilePaths := getIndexedFilePaths st env.wid env.model.id
  let existingFilePaths := indexedFilePaths.filter (fun p => env.disk.any (fun f => f.path == p))
  let currentFilePaths := (env.disk.map toFileInfo).map (fun f => f.path)
  let validFilePaths := existingFilePaths.filter (fun p => currentFilePaths.contains p)
  deleteVectorsForDeletedFiles st env.wid validFilePaths env.model.id

/-- The files chosen for (re)indexing by `updateVaultIndexInternal`:
everything on a full rebuild, otherwise the mtime diff against the
pruned store. -/
def updateFilesToIndex (env : UpdateEnv) (st : List EmbeddingRow) : List FileInfo :=
  let allFiles := env.disk.map toFileInfo
  if env.reindexAll then allFiles
  else getFilesToIndexModel allFiles (pruneDeletedFiles env st) env.wid env.model

/-- The store state after the deletion phase of `updateVaultIndexInternal`:
full rebuild clears the workspace+model partition (before the empty-file
check, so it happens even when nothing will be indexed); incremental
prunes deleted files and then pre-deletes the rows of every file about
to be reindexed. -/
def storeAfterPreDelete (env : UpdateEnv) (st : List EmbeddingRow) : List EmbeddingRow :=
  if env.reindexAll then clearAllVectors st env.wid env.model.id
  else
    let st0 := pruneDeletedFiles env st
    let files := getFilesToIndexModel (env.disk.map toFileInfo) st0 env.wid env.model
    deleteVectorsForMultipleFiles st0 env.wid (files.map (fun f => f.path)) env.model.id

-- Reading the DiskFile entries for the chosen FileInfos.
def diskFilesFor (env : UpdateEnv) (files : List FileInfo) : List DiskFile :=
  files.filterMap (fun fi => env.disk.find? (fun d => d.path == fi.path))

/-- `VectorManager.updateVaultIndexInternal`: enumerate and pre-delete,
read and chunk, check the token, persist skipped markers, then run the
embedding loop (its token reads start at index 1; the pre-loop check is
read 0). Note that no step consults the schema dimension. -/
def updateVaultIndexModel (env : UpdateEnv) (st : List EmbeddingRow) :
    List EmbeddingRow × UpdateOutcome :=
  let filesToIndex := updateFilesToIndex env st
  let st1 := storeAfterPreDelete env st
  if filesToIndex.isEmpty then (st1, UpdateOutcome.completed)
  else
    let prep := prepareContentChunks env.process env.split env.chunkSize
      (diskFilesFor env filesToIndex)
    if isCanc env.cancelAt 0 then (st1, UpdateOutcome.cancelled)
    else
      let markers := recordSkippedFiles env.wid env.model prep.skippedFiles filesToIndex
      let st2 := insertVectors st1 markers
      if prep.contentChunks.isEmpty then
        if prep.failedFiles.isEmpty && !prep.skippedFiles.isEmpty then
          (st2, UpdateOutcome.completed)
        else (st2, UpdateOutcome.errored ("All files failed to process. No content to index."))
      else
        let r := processEmbeddingsModel env.cancelAt env.wid env.model env.outcomesFor
          prep.contentChunks 1 st2
        match r.2.2 with
        | PEOutcome.completed => (r.2.1, UpdateOutcome.completed)
        | PEOutcome.cancelled => (r.2.1, UpdateOutcome.cancelled)
        | PEOutcome.failedOutcome _ =>
          (r.2.1, UpdateOutcome.errored ("Failed to embed chunks"))

/- ===================== Trace predicates for the cancellation claim (C5) ===================== -/

-- The three checkpoint kinds named by the specification: before each
-- batch, before each embedding call, after the batch completes.
def relevantKind : CheckKind → Bool
  | CheckKind.preBatch => true
  | CheckKind.preCall => true
  | CheckKind.postBatch => true
  | _ => false

def isInsertEvent : PEEvent → Bool
  | PEEvent.insertEv _ => true
  | _ => false

def isTrueCheck : PEEvent → Bool
  | PEEvent.check _ v => v
  | _ => false

def noInsert (l : List PEEvent) : Bool := l.all (fun e => !isInsertEvent e)

def hasTrueCheck (l : List PEEvent) : Bool := l.any isTrueCheck

-- Cancellation observed at one of the three specified checkpoint kinds.
def observedCancel (l : List PEEvent) : Bool :=
  l.any (fun e =>
    match e with
    | PEEvent.check k v => v && relevantKind k
    | PEEvent.insertEv _ => false)

/-- Once a token read at one of the three specified checkpoints observes
`true`, no insert may follow in the rest of the trace (in particular
the pending partial batch is dropped). -/
def droppedAfterCancel : List PEEvent → Bool
  | [] => true
  | PEEvent.check k v :: t =>
    if v && relevantKind k then noInsert t else droppedAfterCancel t
  | PEEvent.insertEv _ :: t => droppedAfterCancel t

/- ===================== Spec-side selection conditions (C8) ===================== -/

/-- The incremental-selection condition with the stored mtime spelled out:
a file is selected when it has no stored row with positive mtime, or
when some stored mtime is positive, maximal among the stored mtimes,
and strictly below the on-disk mtime. This is what
`getFilesToIndexModel` actually implements. -/
def specSelect (st : List EmbeddingRow) (wid mid : String) (f : FileInfo) : Bool :=
  let ms := (rowsForFile st wid mid f.path).map (fun r => r.mtime)
  ms.all (fun m => decide (m ≤ 0)) ||
    ms.any (fun m =>
      decide (0 < m) && ms.all (fun m2 => decide (m2 ≤ m)) && decide (f.mtime > m))

/-- The selection condition exactly as the claim states it: nonzero size,
and either no rows in the store for this workspace and model, or the
on-disk mtime strictly greater than the maximum stored mtime. -/
def claimSelect (st : List EmbeddingRow) (wid mid : String) (f : FileInfo) : Bool :=
  let ms := (rowsForFile st wid mid f.path).map (fun r => r.mtime)
  f.size != 0 &&
    (ms.isEmpty ||
      ms.any (fun m => ms.all (fun m2 => decide (m2 ≤ m)) && decide (f.mtime > m)))

/- ===================== Concrete instances for counterexamples ===================== -/

-- C2: a stored row written for a 768-dimension schema while the model
-- produces 1536 dimensions, and a full-rebuild environment over an empty
-- directory tree.
def c2Row : EmbeddingRow :=
  { workspaceId := "w", path := "a.md", mtime := 1, content := "c",
    model := "m", dimension := 768, embedding := [],
    metadata := { startLine := 1, endLine := 1 } }

def c2Env : UpdateEnv :=
  { wid := "w", model := { id := "m", dimension := 1536 }, disk := [],
    process := id, split := fun _ => none, chunkSize := 1000,
    outcomesFor := fun _ _ => AttemptResult.err (JsError.raw none ("boom")),
    cancelAt := none, reindexAll := true }

-- C4: an empty file recorded as skipped.
def c4Skipped : SkippedFile :=
  { path := "a.md", reason := "File is empty (size: 0 bytes)", size := 0 }

def c4File : FileInfo := { path := "a.md", mtime := 5, size := 0 }

-- C8: a stored row whose mtime is 0 (epoch) for a file whose on-disk
-- mtime is also 0 and whose size is positive.
def c8Row : EmbeddingRow :=
  { workspaceId := "w", path := "a.md", mtime := 0, content := "c",
    model := "m", dimension := 1, embedding := [],
    metadata := { startLine := 1, endLine := 1 } }

def c8File : FileInfo := { path := "a.md", mtime := 0, size := 5 }

def c8Model : EmbeddingModelClient := { id := "m", dimension := 1 }

-- C3: a provider that fails every attempt with HTTP 401.
def alwaysUnauthorized : Nat → AttemptResult :=
  fun _ => AttemptResult.err (openAIWrapError 401 ("Unauthorized"))

-- C6 witness: a single unreadable-content file that trims to empty.
def c6Disk : DiskFile :=
  { path := "e.md", mtime := 10, size := 3, content := "x", readable := true }

def c6Env : UpdateEnv :=
  { wid := "w", model := { id := "m", dimension := 2 }, disk := [c6Disk],
    process := fun _ => "", split := fun s => some [s], chunkSize := 1000,
    outcomesFor := fun _ _ => AttemptResult.ok [0, 0],
    cancelAt := none, reindexAll := true }

-- The marker row that the run on `c6Env` persists for `e.md`.
def c6Marker : EmbeddingRow :=
  mkSkippedRow "w" c6Env.model
    { path := "e.md", reason := "File contains no indexable content after processing",
      size := 3 }
    (toFileInfo c6Disk)

-- C5 witness instance: one chunk, token cancelled from the first read.
def c5Chunk : ContentChunk :=
  { path := "a", mtime := 1, content := "x",
    metadata := { startLine := 1, endLine := 1 } }

def c5Model : EmbeddingModelClient := { id := "m", dimension := 1 }

def c5Outcomes : Nat → Nat → AttemptResult := fun _ _ => AttemptResult.ok [0]

/- ===================== Lemmas: lock-key hash ===================== -/

theorem toInt32_bounds (x : Int) : -2147483648 ≤ toInt32 x ∧ toInt32 x < 2147483648 := by
  unfold toInt32
  have h1 : 0 ≤ x % 4294967296 := Int.emod_nonneg x (by norm_num)
  have h2 : x % 4294967296 < 4294967296 := Int.emod_lt_of_pos x (by norm_num)
  dsimp only
  split <;> omega

theorem foldHash_bounds (l : List Char) (h : Int)
    (hh : -2147483648 ≤ h ∧ h < 2147483648) :
    -2147483648 ≤ l.foldl (fun h ch => hashStep h ch.toNat) h ∧
    l.foldl (fun h ch => hashStep h ch.toNat) h < 2147483648 := by
  induction l generalizing h with
  | nil => exact hh
  | cons c t ih =>
    simp only [List.foldl_cons]
    exact ih _ (toInt32_bounds _)

theorem jsStringHash_bounds (s : String) :
    -2147483648 ≤ jsStringHash s ∧ jsStringHash s < 2147483648 :=
  foldHash_bounds s.toList 0 (by norm_num)

/-- C9: the workspace-lock wrapper derives the lock key from the
workspace id by the stable 32-bit string hash (a pure function, hence
deterministic; its value lies in [0, 2^31]), issues exactly an acquire
of that key followed by a release of the same key, and returns the
function outcome unchanged — the release happens both when the body
succeeds and when it throws, since it sits in a `finally` block. -/
theorem withAdvisoryLock_spec (workspaceId : String) (fn : Except ε α) :
    withAdvisoryLock workspaceId fn =
      ([LockEvent.acquire (workspaceIdToLockKey workspaceId),
        LockEvent.release (workspaceIdToLockKey workspaceId)], fn) ∧
    0 ≤ workspaceIdToLockKey workspaceId ∧
    workspaceIdToLockKey workspaceId ≤ 2147483648 := by
  refine ⟨?_, ?_, ?_⟩
  · cases fn <;> rfl
  · exact Int.natCast_nonneg _
  · have := jsStringHash_bounds workspaceId
    unfold workspaceIdToLockKey
    omega

/- ===================== Lemmas: in-process mutex ===================== -/

theorem stepIM_no_busy (s : IMState) (e : IMEvent)
    (h : s.log.all (fun p => p.2 != HandlerResult.busyResp) = true) :
    (stepIM s e).log.all (fun p => p.2 != HandlerResult.busyResp) = true := by
  cases e with
  | arrive rid ok => cases hr : s.running <;> simpa [stepIM, hr] using h
  | finishRun =>
    cases hr : s.running with
    | none => simpa [stepIM, hr] using h
    | some rb =>
      obtain ⟨rid, ok⟩ := rb
      cases hq : s.queue with
      | nil =>
        simp only [stepIM, hr, hq, List.all_append, List.all_cons, List.all_nil]
        refine (Bool.and_eq_true _ _).mpr ⟨h, ?_⟩
        cases ok <;> decide
      | cons a t =>
        simp only [stepIM, hr, hq, List.all_append, List.all_cons, List.all_nil]
        refine (Bool.and_eq_true _ _).mpr ⟨h, ?_⟩
        cases ok <;> decide

theorem runIM_no_busy_aux (evs : List IMEvent) (s : IMState)
    (h : s.log.all (fun p => p.2 != HandlerResult.busyResp) = true) :
    (evs.foldl stepIM s).log.all (fun p => p.2 != HandlerResult.busyResp) = true := by
  induction evs generalizing s with
  | nil => exact h
  | cons e t ih =>
    simp only [List.foldl_cons]
    exact ih _ (stepIM_no_busy s e h)

/-- C1: under the queueing semantics of `async-mutex`
(`Mutex.runExclusive` enqueues contenders instead of rejecting), a
rebuild request arriving while another is running is appended to the
waiter queue, runs after the first completes and receives an ordinary
result; no execution of the handler ever produces the "busy" rejection,
so the catch branch meant to map it to HTTP 409 is dead code. This
contradicts the claim (and design.md), which require an immediate typed
"busy" rejection and no enqueueing. -/
theorem secondIndexingRequestIsQueuedNotRejected :
    (runIM [IMEvent.arrive 1 true, IMEvent.arrive 2 true]).queue = [(2, true)] ∧
    (runIM [IMEvent.arrive 1 true, IMEvent.arrive 2 true,
      IMEvent.finishRun, IMEvent.finishRun]).log =
      [(1, HandlerResult.ranOk), (2, HandlerResult.ranOk)] ∧
    ∀ evs : List IMEvent,
      (runIM evs).log.all (fun p => p.2 != HandlerResult.busyResp) = true := by
  refine ⟨by decide, by decide, fun evs => runIM_no_busy_aux evs _ (by decide)⟩

/-- C3: a persistent HTTP 401 (invalid credentials) from the hosted
provider is wrapped by `OpenAIEmbeddingClient.getEmbedding` into an
`EmbeddingError`, and the retry condition of the indexing loop
(`error.status === 429 || error instanceof EmbeddingError`) accepts it,
so the unauthorized failure satisfies the retry condition and the call
is attempted five times (one pre-call checkpoint per attempt appears in
the trace) before the invalid-key error surfaces — contradicting the
claim that Unauthorized is never retried and surfaced immediately. -/
theorem unauthorizedErrorIsRetried :
    retryPredicate (openAIWrapError 401 ("Unauthorized")) = true ∧
    (backOffChunk none alwaysUnauthorized 1 0 5).1.length = 5 ∧
    (backOffChunk none alwaysUnauthorized 1 0 5).2.2 =
      ChunkRes.failedRes ("OpenAI API key is invalid. Please update it in configuration.") := by
  refine ⟨by decide, by rfl, by rfl⟩

/- ===================== Lemmas: cosine similarity ===================== -/

theorem sumSquares_nonneg (a : List ℝ) : 0 ≤ sumSquares a := by
  unfold sumSquares
  apply List.sum_nonneg
  intro x hx
  obtain ⟨y, _, rfl⟩ := List.mem_map.mp hx
  exact mul_self_nonneg y

theorem sqrt_sumSquares_eq_zero_iff (a : List ℝ) :
    Real.sqrt (sumSquares a) = 0 ↔ sumSquares a = 0 := by
  rw [Real.sqrt_eq_zero']
  exact ⟨fun h => le_antisymm h (sumSquares_nonneg a), fun h => h.le⟩

/-- C10: the in-memory cosine similarity is total on equal-length
vectors: it returns the dot product over the product of magnitudes when
both sums of squares are nonzero (equivalently, both magnitudes are
nonzero), returns 0 instead of dividing by zero when either magnitude
vanishes, and throws the dimension error exactly when the lengths
differ. -/
theorem calculateCosineSimilarity_spec (a b : List ℝ) :
    calculateCosineSimilarity a b =
      if a.length = b.length then
        Except.ok
          (if sumSquares a = 0 ∨ sumSquares b = 0 then 0
           else dotProduct a b / (Real.sqrt (sumSquares a) * Real.sqrt (sumSquares b)))
      else Except.error ("Vector dimensions must match") := by
  unfold calculateCosineSimilarity
  by_cases h : a.length = b.length
  · simp only [h, ne_eq, not_true_eq_false, if_false, if_true]
    exact (if_congr (or_congr (sqrt_sumSquares_eq_zero_iff a)
      (sqrt_sumSquares_eq_zero_iff b)) rfl rfl).trans (apply_ite Except.ok _ _ _).symm
  · simp only [h, ne_eq, not_false_eq_true, if_true, if_false]

/- ===================== C2: dimension mismatch ===================== -/

/-- C2 counterexample: with the schema declaring vector(768) and the
model producing 1536 dimensions, `validateSchemaDimension` reports the
mismatch, yet a full-rebuild update on the environment still clears the
stored row — the store is modified (the claim requires no deletion or
insertion) and the run completes instead of failing with a
configuration error. -/
theorem mismatchedDimensionUpdateStillModifiesStore :
    (validateSchemaDimension (some 768) (c2Env.model.dimension)).valid = false ∧
    (updateVaultIndexModel c2Env [c2Row]).1 = [] ∧
    (updateVaultIndexModel c2Env [c2Row]).2 = UpdateOutcome.completed := by
  refine ⟨by rfl, by rfl, by rfl⟩

/-- C2 amended: `validateSchemaDimension` reports validity exactly when
the declared schema dimension equals the model dimension and attaches a
message whenever it is invalid, but the result is only logged: no step
of the index update consults it, and a full-rebuild run performs its
deletion phase (and would proceed to insert) for every initial store
even under the 768-versus-1536 mismatch of `c2Env`. -/
theorem validateSchemaDimension_reportsButDoesNotBlock :
    (∀ (sd : Option Nat) (ed : Nat),
      (validateSchemaDimension sd ed).valid = (sd == some ed) ∧
      ((validateSchemaDimension sd ed).valid ||
        (validateSchemaDimension sd ed).message.isSome) = true) ∧
    ∀ st : List EmbeddingRow,
      updateVaultIndexModel c2Env st =
        (clearAllVectors st c2Env.wid c2Env.model.id, UpdateOutcome.completed) := by
  constructor
  · intro sd ed
    cases sd with
    | none => simp [validateSchemaDimension]
    | some d =>
      by_cases h : d = ed
      · subst h; simp [validateSchemaDimension]
      · simp [validateSchemaDimension, h]
  · intro st
    rfl

/- ===================== Lemmas: incremental selection (C8) ===================== -/

theorem mem_dedupKeepFirst [BEq α] [LawfulBEq α] (l : List α) (x : α) :
    x ∈ dedupKeepFirst l ↔ x ∈ l := by
  induction l with
  | nil => simp [dedupKeepFirst]
  | cons a t ih =>
    simp only [dedupKeepFirst, List.mem_cons, List.mem_filter]
    constructor
    · rintro (rfl | ⟨hx, _⟩)
      · exact Or.inl rfl
      · exact Or.inr (ih.mp hx)
    · rintro (rfl | hx)
      · exact Or.inl rfl
      · by_cases hxa : x = a
        · exact Or.inl hxa
        · exact Or.inr ⟨ih.mpr hx, by simp [hxa]⟩

theorem foldMax_ge_init (ms : List Int) (a : Int) :
    a ≤ ms.foldl (fun acc m => if m > acc then m else acc) a := by
  induction ms generalizing a with
  | nil => exact le_refl a
  | cons m t ih =>
    simp only [List.foldl_cons]
    refine le_trans ?_ (ih _)
    split <;> omega

theorem foldMax_ge_mem (ms : List Int) (a : Int) :
    ∀ m ∈ ms, m ≤ ms.foldl (fun acc m => if m > acc then m else acc) a := by
  induction ms generalizing a with
  | nil => simp
  | cons m t ih =>
    intro x hx
    simp only [List.mem_cons] at hx
    simp only [List.foldl_cons]
    rcases hx with rfl | hx
    · refine le_trans ?_ (foldMax_ge_init t _)
      split <;> omega
    · exact ih _ x hx

theorem foldMax_mem_or_init (ms : List Int) (a : Int) :
    ms.foldl (fun acc m => if m > acc then m else acc) a = a ∨
    ms.foldl (fun acc m => if m > acc then m else acc) a ∈ ms := by
  induction ms generalizing a with
  | nil => exact Or.inl rfl
  | cons m t ih =>
    simp only [List.foldl_cons, List.mem_cons]
    rcases ih (if m > a then m else a) with h | h
    · by_cases hma : m > a
      · rw [h, if_pos hma]
        exact Or.inr (Or.inl rfl)
      · rw [h, if_neg hma]
        exact Or.inl rfl
    · exact Or.inr (Or.inr h)

theorem mem_getIndexedFilePaths (st : List EmbeddingRow) (wid mid p : String) :
    p ∈ getIndexedFilePaths st wid mid ↔ rowsForFile st wid mid p ≠ [] := by
  unfold getIndexedFilePaths rowsForFile
  rw [mem_dedupKeepFirst]
  simp only [List.mem_map, List.mem_filter, ne_eq]
  constructor
  · rintro ⟨r, ⟨hr, hscope⟩, rfl⟩ hnil
    have hmem : r ∈ st.filter (fun x => rowInScope wid mid x && x.path == r.path) :=
      List.mem_filter.mpr ⟨hr, by simp [hscope]⟩
    rw [hnil] at hmem
    exact absurd hmem (List.not_mem_nil r)
  · intro h
    obtain ⟨r, hmem⟩ := List.exists_mem_of_ne_nil _ h
    have hsplit := List.mem_filter.mp hmem
    have hconj := (Bool.and_eq_true _ _).mp hsplit.2
    exact ⟨r, ⟨hsplit.1, hconj.1⟩, by simpa using hconj.2⟩

/-- C8 (amended): a file is selected for reindexing exactly when its
size is nonzero and either it has no stored row with positive mtime
(rows with mtime ≤ 0 never register in the modification-time map, so a
file whose rows all have mtime ≤ 0 counts as unindexed), or some stored
mtime is positive, maximal among the stored mtimes, and strictly less
than the on-disk mtime. -/
theorem getFilesToIndexModel_eq_spec (allFiles : List FileInfo) (st : List EmbeddingRow)
    (wid : String) (model : EmbeddingModelClient) :
    getFilesToIndexModel allFiles st wid model =
      allFiles.filter (fun f => f.size != 0 && specSelect st wid model.id f) := by
  unfold getFilesToIndexModel getFilesToReindex
  apply List.filter_congr
  intro f _
  by_cases hsz : f.size = 0
  · simp [hsz]
  · have hsz' : (f.size == 0) = false := by simp [hsz]
    have hne : (f.size != 0) = true := by simp [hsz]
    rw [hsz', hne]
    simp only [Bool.false_eq_true, if_false, Bool.true_and]
    unfold getFileModificationTimes
    by_cases hc : (getIndexedFilePaths st wid model.id).contains f.path = true
    · rw [if_pos hc]
      rw [show (rowsForFile st wid model.id f.path).foldl
            (fun acc r => if r.mtime > acc then r.mtime else acc) 0 =
          ((rowsForFile st wid model.id f.path).map (fun r => r.mtime)).foldl
            (fun acc m => if m > acc then m else acc) 0 from
        (List.foldl_map (fun r : EmbeddingRow => r.mtime)
          (fun acc m => if m > acc then m else acc)
          (rowsForFile st wid model.id f.path) 0).symm]
      set ms := (rowsForFile st wid model.id f.path).map (fun r => r.mtime) with hms
      set M := ms.foldl (fun acc m => if m > acc then m else acc) 0 with hM
      have hM0 : 0 ≤ M := foldMax_ge_init ms 0
      have hMub : ∀ x ∈ ms, x ≤ M := foldMax_ge_mem ms 0
      have hMmem : M = 0 ∨ M ∈ ms := foldMax_mem_or_init ms 0
      by_cases hMz : M = 0
      · have hall : ms.all (fun m => decide (m ≤ 0)) = true :=
          List.all_eq_true.mpr (fun x hx => by
            have := hMub x hx
            simp only [decide_eq_true_iff]
            omega)
        simp [specSelect, ← hms, hMz, hall]
      · have hMpos : 0 < M := lt_of_le_of_ne hM0 (Ne.symm hMz)
        have hMem : M ∈ ms := hMmem.resolve_left hMz
        rw [Bool.eq_iff_iff]
        simp only [specSelect, ← hms, Bool.or_eq_true, List.all_eq_true, List.any_eq_true,
          Bool.and_eq_true, decide_eq_true_iff, beq_iff_eq]
        constructor
        · rintro (hz | hgt)
          · exact absurd hz hMz
          · exact Or.inr ⟨M, hMem, ⟨hMpos, fun x hx => hMub x hx⟩, hgt⟩
        · rintro (hall | ⟨x, hx, ⟨hxpos, hxmax⟩, hgt⟩)
          · have := hall M hMem
            omega
          · have hxM : x = M := le_antisymm (hMub x hx) (hxmax M hMem)
            exact Or.inr (hxM ▸ hgt)
    · rw [if_neg hc]
      have hrows : rowsForFile st wid model.id f.path = [] := by
        by_contra h
        exact hc (List.elem_iff.mpr ((mem_getIndexedFilePaths st wid model.id f.path).mpr h))
      simp [specSelect, hrows]

/-- C8 counterexample: a file of positive size whose only stored row has
mtime 0 and whose on-disk mtime is also 0 is selected by the code (the
running-maximum map treats the mtime-0 row as absent), while the claim
— which has rows in the store and no strictly newer on-disk mtime —
says it must not be selected. -/
theorem storedEpochMtimeFileReselected :
    getFilesToIndexModel [c8File] [c8Row] "w" c8Model = [c8File] ∧
    claimSelect [c8Row] "w" "m" c8File = false := by
  exact ⟨by rfl, by rfl⟩

/- ===================== Lemmas: similarity search membership (C6/C7) ===================== -/

theorem mem_pgvectorBranch (dist : List ℝ → ℝ) (rows : List EmbeddingRow)
    (minSim : ℝ) (limit : Nat) (p : EmbeddingRow × ℝ)
    (hp : p ∈ performSimilaritySearchWithPgvector dist rows minSim limit) :
    p.1 ∈ rows := by
  unfold performSimilaritySearchWithPgvector at hp
  have h1 := List.take_subset _ _ hp
  obtain ⟨r, hr, heq⟩ := List.mem_filterMap.mp h1
  have hr2 := List.take_subset _ _ hr
  have hr3 := (List.mergeSort_perm rows _).mem_iff.mp hr2
  by_cases hlt : 1 - dist r.embedding < minSim
  · simp only [hlt, if_true] at heq
    exact absurd heq (by simp)
  · simp only [hlt, if_false] at heq
    obtain rfl := Option.some.inj heq
    exact hr3

theorem mem_jsMapSims (q : List ℝ) (rows : List EmbeddingRow)
    (l : List (EmbeddingRow × ℝ)) (h : jsMapSims q rows = Except.ok l) :
    ∀ p ∈ l, p.1 ∈ rows := by
  induction rows generalizing l with
  | nil =>
    unfold jsMapSims at h
    obtain rfl := Except.ok.inj h
    intro p hp
    exact absurd hp (List.not_mem_nil p)
  | cons r t ih =>
    unfold jsMapSims at h
    cases hcs : calculateCosineSimilarity q r.embedding with
    | error e => rw [hcs] at h; cases h
    | ok s =>
      rw [hcs] at h
      cases hrec : jsMapSims q t with
      | error e => rw [hrec] at h; cases h
      | ok rest =>
        rw [hrec] at h
        obtain rfl := Except.ok.inj h
        intro p hp
        rcases List.mem_cons.mp hp with rfl | hp
        · exact List.mem_cons_self r t
        · exact List.mem_cons_of_mem r (ih rest hrec p hp)

theorem mem_jsBranch (q : List ℝ) (rows : List EmbeddingRow) (minSim : ℝ)
    (limit : Nat) (l : List (EmbeddingRow × ℝ))
    (h : performSimilaritySearchWithJavaScript q rows minSim limit = Except.ok l) :
    ∀ p ∈ l, p.1 ∈ rows := by
  unfold performSimilaritySearchWithJavaScript at h
  cases hms : jsMapSims q rows with
  | error e => rw [hms] at h; cases h
  | ok withSims =>
    rw [hms] at h
    obtain rfl := Except.ok.inj h
    intro p hp
    have h1 := List.take_subset _ _ hp
    have h2 := (List.mergeSort_perm _ _).mem_iff.mp h1
    exact mem_jsMapSims q rows withSims hms p (List.mem_filter.mp h2).1

theorem searchResult_satisfies_where (columnIsVector : Bool) (dist : List ℝ → ℝ)
    (wid : String) (q : List ℝ) (model : EmbeddingModelClient) (minSim : ℝ)
    (limit : Nat) (scopeFiles : Option (List String)) (st : List EmbeddingRow)
    (p : EmbeddingRow × ℝ)
    (hp : p ∈ okResults
      (performSimilaritySearch columnIsVector dist wid q model minSim limit scopeFiles st)) :
    whereConditions wid model scopeFiles p.1 = true := by
  unfold performSimilaritySearch at hp
  cases columnIsVector with
  | true =>
    simp only [if_true, okResults] at hp
    exact (List.mem_filter.mp (mem_pgvectorBranch dist _ minSim limit p hp)).2
  | false =>
    simp only [Bool.false_eq_true, if_false] at hp
    cases hres : performSimilaritySearchWithJavaScript q
        (st.filter (whereConditions wid model scopeFiles)) minSim limit with
    | error e =>
      rw [hres] at hp
      exact absurd hp (List.not_mem_nil p)
    | ok l =>
      rw [hres] at hp
      exact (List.mem_filter.mp (mem_jsBranch q _ minSim limit l hres p hp)).2

/-- C7: every row returned by a similarity search — through the native
pgvector branch (for any external distance operator) or through the
JSONB JavaScript fallback — satisfies the where-filter, whose first
conjunct is workspace equality; hence no returned row belongs to
another workspace. -/
theorem similaritySearchWorkspaceIsolation (columnIsVector : Bool)
    (dist : List ℝ → ℝ) (wid : String) (q : List ℝ)
    (model : EmbeddingModelClient) (minSim : ℝ) (limit : Nat)
    (scopeFiles : Option (List String)) (st : List EmbeddingRow) :
    (okResults (performSimilaritySearch columnIsVector dist wid q model
      minSim limit scopeFiles st)).all (fun p => p.1.workspaceId == wid) = true := by
  apply List.all_eq_true.mpr
  intro p hp
  have hw := searchResult_satisfies_where columnIsVector dist wid q model minSim
    limit scopeFiles st p hp
  unfold whereConditions at hw
  simp only [Bool.and_eq_true] at hw
  exact hw.1.1.1.1

/- ===================== Lemmas: chunk line numbers (C4) ===================== -/

theorem splitNl_ne_nil (l : List Char) : splitNl l ≠ [] := by
  induction l with
  | nil => simp [splitNl]
  | cons c t ih =>
    unfold splitNl
    by_cases hc : c = '\n'
    · simp [hc]
    · simp only [hc, if_false]
      cases h : splitNl t <;> simp

theorem jsSplitNl_length_pos (s : String) : 1 ≤ (jsSplitNl s).length := by
  unfold jsSplitNl
  rw [List.length_map]
  exact List.length_pos.mpr (splitNl_ne_nil _)

theorem calculateLineNumbers_bounds (o c : String) :
    1 ≤ (calculateLineNumbers o c).1 ∧
    (calculateLineNumbers o c).1 ≤ (calculateLineNumbers o c).2 := by
  unfold calculateLineNumbers
  by_cases h : (jsSplitNl c).length ≤ (jsSplitNl o).length
  · simp only [h, if_true]
    cases hf : (List.range ((jsSplitNl o).length - (jsSplitNl c).length + 1)).find?
        (linesMatchAt (jsSplitNl o) (jsSplitNl c)) with
    | none => exact ⟨le_refl 1, le_refl 1⟩
    | some i =>
      have hl := jsSplitNl_length_pos c
      dsimp only
      constructor
      · omega
      · omega
  · simp only [h, if_false]
    exact ⟨le_refl 1, le_refl 1⟩

theorem createChunks_facts (split : String → Option (List String))
    (content filePath : String) (mtime : Int) :
    ∀ ch ∈ createChunks split content filePath mtime,
      ch.path = filePath ∧ ch.metadata.skipped = none ∧
      1 ≤ ch.metadata.startLine ∧ ch.metadata.startLine ≤ ch.metadata.endLine := by
  intro ch hch
  unfold createChunks at hch
  cases hs : split content with
  | some docs =>
    rw [hs] at hch
    obtain ⟨doc, _, rfl⟩ := List.mem_map.mp hch
    have hb := calculateLineNumbers_bounds content doc
    exact ⟨rfl, rfl, hb.1, hb.2⟩
  | none =>
    rw [hs] at hch
    rw [List.mem_singleton] at hch
    subst hch
    refine ⟨rfl, rfl, le_refl 1, ?_⟩
    have := jsSplitNl_length_pos content
    simp only
    omega

theorem createChunksForFiles_facts (split : String → Option (List String))
    (files : List FileContent) :
    ∀ ch ∈ createChunksForFiles split files,
      (∃ f ∈ files, ch.path = f.path) ∧ ch.metadata.skipped = none ∧
      1 ≤ ch.metadata.startLine ∧ ch.metadata.startLine ≤ ch.metadata.endLine := by
  intro ch hch
  unfold createChunksForFiles at hch
  obtain ⟨l, hl, hcl⟩ := List.mem_flatten.mp hch
  obtain ⟨f, hf, rfl⟩ := List.mem_map.mp hl
  have h := createChunks_facts split f.content f.path f.mtime ch hcl
  exact ⟨⟨f, hf, h.1⟩, h.2⟩

theorem processChunks_facts (chunkSize : Nat) (chunks : List ContentChunk) :
    ∀ ch ∈ processChunks chunkSize chunks,
      ∃ c0 ∈ chunks, ch.metadata = c0.metadata ∧ ch.path = c0.path := by
  intro ch hch
  unfold processChunks at hch
  have h1 := List.mem_filter.mp hch
  obtain ⟨c0, hc0, rfl⟩ := List.mem_map.mp h1.1
  exact ⟨c0, hc0, rfl, rfl⟩

theorem prepareContentChunks_chunk_facts (process : String → String)
    (split : String → Option (List String)) (chunkSize : Nat) (files : List DiskFile) :
    ∀ ch ∈ (prepareContentChunks process split chunkSize files).contentChunks,
      (∃ fc ∈ (readFiles process files).2.2, ch.path = fc.path) ∧
      ch.metadata.skipped = none ∧ 1 ≤ ch.metadata.startLine ∧
      ch.metadata.startLine ≤ ch.metadata.endLine := by
  intro ch hch
  unfold prepareContentChunks at hch
  dsimp only at hch
  obtain ⟨c0, hc0, hmeta, hpath⟩ := processChunks_facts _ _ ch hch
  obtain ⟨⟨f, hf, hp⟩, hskip, h1, h2⟩ := createChunksForFiles_facts split _ c0 hc0
  rw [hmeta, hpath]
  exact ⟨⟨f, hf, hp⟩, hskip, h1, h2⟩

/- ===================== Lemmas: embedding-loop provenance (C4/C6) ===================== -/

theorem processChunkModel_row (cancelAt : Option Nat) (wid : String)
    (model : EmbeddingModelClient) (outcomes : Nat → AttemptResult)
    (c : ContentChunk) (q : Nat) (r : EmbeddingRow)
    (h : (processChunkModel cancelAt wid model outcomes c q).2.2.1 = some r) :
    ∃ v, r = mkChunkRow wid model c v := by
  unfold processChunkModel at h
  by_cases h0 : isCanc cancelAt q = true
  · simp [h0] at h
  · simp only [h0, Bool.false_eq_true, if_false] at h
    rcases hB : backOffChunk cancelAt outcomes 1 (q + 1) 5 with ⟨evts, qq, res⟩
    rw [hB] at h
    cases res with
    | vec v =>
      simp only at h
      exact ⟨v, (Option.some.inj h).symm⟩
    | canc => simp at h
    | failedRes m => simp at h

theorem processBatchChunks_rows (cancelAt : Option Nat) (wid : String)
    (model : EmbeddingModelClient) (outcomesFor : Nat → Nat → AttemptResult)
    (b : List (Nat × ContentChunk)) :
    ∀ (q : Nat),
      ∀ row ∈ (processBatchChunks cancelAt wid model outcomesFor b q).2.2.1,
        ∃ p ∈ b, ∃ v, row = mkChunkRow wid model p.2 v := by
  induction b with
  | nil =>
    intro q row hrow
    simp only [processBatchChunks] at hrow
    exact absurd hrow (List.not_mem_nil row)
  | cons pc rest ih =>
    intro q row hrow
    obtain ⟨idx, c⟩ := pc
    unfold processBatchChunks at hrow
    rcases h1 : processChunkModel cancelAt wid model (outcomesFor idx) c q with
      ⟨evts, q1, rowOpt, failOpt⟩
    rw [h1] at hrow
    dsimp only at hrow
    cases rowOpt with
    | some r0 =>
      simp only at hrow
      rcases List.mem_cons.mp hrow with rfl | hrow
      · obtain ⟨v, hv⟩ := processChunkModel_row cancelAt wid model (outcomesFor idx) c q row
          (by rw [h1])
        exact ⟨(idx, c), List.mem_cons_self _ _, v, hv⟩
      · obtain ⟨p, hp, v, hv⟩ := ih q1 row hrow
        exact ⟨p, List.mem_cons_of_mem _ hp, v, hv⟩
    | none =>
      simp only at hrow
      obtain ⟨p, hp, v, hv⟩ := ih q1 row hrow
      exact ⟨p, List.mem_cons_of_mem _ hp, v, hv⟩

theorem processBatchesModel_store (cancelAt : Option Nat) (wid : String)
    (model : EmbeddingModelClient) (outcomesFor : Nat → Nat → AttemptResult)
    (batches : List (List (Nat × ContentChunk))) :
    ∀ (q : Nat) (store : List EmbeddingRow) (fails : List String),
      ∃ extra,
        (processBatchesModel cancelAt wid model outcomesFor batches q store fails).2.1 =
          store ++ extra ∧
        ∀ r ∈ extra, ∃ p ∈ batches.flatten, ∃ v, r = mkChunkRow wid model p.2 v := by
  induction batches with
  | nil =>
    intro q store fails
    exact ⟨[], by simp [processBatchesModel], by simp⟩
  | cons b rest ih =>
    intro q store fails
    unfold processBatchesModel
    by_cases hv : isCanc cancelAt q = true
    · simp only [hv, if_true]
      exact ⟨[], by simp, by simp⟩
    · simp only [hv, Bool.false_eq_true, if_false]
      rcases hrb : processBatchChunks cancelAt wid model outcomesFor b (q + 1) with
        ⟨evts, q1, rows, newFails⟩
      have hrows : ∀ row ∈ rows, ∃ p ∈ b, ∃ v, row = mkChunkRow wid model p.2 v := by
        intro row hrow
        exact processBatchChunks_rows cancelAt wid model outcomesFor b (q + 1) row
          (by rw [hrb]; exact hrow)
      dsimp only
      by_cases hv2 : isCanc cancelAt q1 = true
      · simp only [hv2, if_true]
        exact ⟨[], by simp, by simp⟩
      · simp only [hv2, Bool.false_eq_true, if_false]
        by_cases hre : rows.isEmpty = true
        · simp only [hre, if_true]
          by_cases hv3 : isCanc cancelAt (q1 + 1) = true
          · simp only [hv3, if_true]
            exact ⟨[], by simp, by simp⟩
          · simp only [hv3, Bool.false_eq_true, if_false]
            obtain ⟨extra, hst, hmem⟩ := ih (q1 + 2) store (fails ++ newFails)
            refine ⟨extra, by simpa using hst, ?_⟩
            intro r hr
            obtain ⟨p, hp, v, hv'⟩ := hmem r hr
            exact ⟨p, by simp [List.mem_flatten] at hp ⊢; exact Or.inr hp, v, hv'⟩
        · simp only [hre, if_false]
          by_cases hv3 : isCanc cancelAt (q1 + 1) = true
          · simp only [hv3, if_true]
            refine ⟨rows, rfl, ?_⟩
            intro r hr
            obtain ⟨p, hp, v, hv'⟩ := hrows r hr
            exact ⟨p, by simp [List.mem_flatten] at hp ⊢; exact Or.inl hp, v, hv'⟩
          · simp only [hv3, Bool.false_eq_true, if_false]
            obtain ⟨extra, hst, hmem⟩ := ih (q1 + 2) (insertVectors store rows) (fails ++ newFails)
            refine ⟨rows ++ extra, ?_, ?_⟩
            · rw [hst]
              simp [insertVectors]
            · intro r hr
              rcases List.mem_append.mp hr with hr | hr
              · obtain ⟨p, hp, v, hv'⟩ := hrows r hr
                exact ⟨p, by simp [List.mem_flatten] at hp ⊢; exact Or.inl hp, v, hv'⟩
              · obtain ⟨p, hp, v, hv'⟩ := hmem r hr
                exact ⟨p, by simp [List.mem_flatten] at hp ⊢; exact Or.inr hp, v, hv'⟩

/- ===================== Lemmas: batching and store subsets ===================== -/

theorem toBatchesFuel_flatten (n : Nat) (hn : 0 < n) :
    ∀ (fuel : Nat) (l : List α), l.length ≤ fuel → (toBatchesFuel fuel n l).flatten = l := by
  intro fuel
  induction fuel with
  | zero =>
    intro l hl
    have : l = [] := List.eq_nil_of_length_eq_zero (Nat.le_zero.mp hl)
    subst this
    rfl
  | succ fuel ih =>
    intro l hl
    cases l with
    | nil => rfl
    | cons a t =>
      show ((a :: t).take n :: toBatchesFuel fuel n ((a :: t).drop n)).flatten = a :: t
      rw [List.flatten_cons, ih ((a :: t).drop n) ?_]
      · exact List.take_append_drop n (a :: t)
      · rw [List.length_drop]
        simp only [List.length_cons] at hl ⊢
        omega

theorem toBatches_flatten (n : Nat) (hn : 0 < n) (l : List α) :
    (toBatches n l).flatten = l :=
  toBatchesFuel_flatten n hn l.length l (le_refl _)

theorem clearAllVectors_subset (st : List EmbeddingRow) (wid mid : String) :
    ∀ r ∈ clearAllVectors st wid mid, r ∈ st := by
  intro r hr
  exact (List.mem_filter.mp hr).1

theorem deleteVectorsForMultipleFiles_subset (st : List EmbeddingRow) (wid : String)
    (paths : List String) (mid : String) :
    ∀ r ∈ deleteVectorsForMultipleFiles st wid paths mid, r ∈ st := by
  intro r hr
  unfold deleteVectorsForMultipleFiles at hr
  split at hr
  · exact hr
  · exact (List.mem_filter.mp hr).1

theorem deleteVectorsForDeletedFiles_subset (st : List EmbeddingRow) (wid : String)
    (paths : List String) (mid : String) :
    ∀ r ∈ deleteVectorsForDeletedFiles st wid paths mid, r ∈ st := by
  intro r hr
  unfold deleteVectorsForDeletedFiles at hr
  split at hr
  · exact clearAllVectors_subset st wid mid r hr
  · exact (List.mem_filter.mp hr).1

theorem pruneDeletedFiles_subset (env : UpdateEnv) (st : List EmbeddingRow) :
    ∀ r ∈ pruneDeletedFiles env st, r ∈ st := by
  intro r hr
  unfold pruneDeletedFiles at hr
  exact deleteVectorsForDeletedFiles_subset st env.wid _ env.model.id r hr

theorem storeAfterPreDelete_subset (env : UpdateEnv) (st : List EmbeddingRow) :
    ∀ r ∈ storeAfterPreDelete env st, r ∈ st := by
  intro r hr
  unfold storeAfterPreDelete at hr
  split at hr
  · exact clearAllVectors_subset st env.wid env.model.id r hr
  · exact pruneDeletedFiles_subset env st r
      (deleteVectorsForMultipleFiles_subset _ env.wid _ env.model.id r hr)

theorem recordSkippedFiles_shape (wid : String) (model : EmbeddingModelClient)
    (skippedFiles : List SkippedFile) (allFiles : List FileInfo) :
    ∀ r ∈ recordSkippedFiles wid model skippedFiles allFiles,
      r.metadata.skipped = some true ∧ r.metadata.startLine = 0 ∧
      r.metadata.endLine = 0 ∧ r.content = "[SKIPPED: No indexable content]" ∧
      r.embedding = List.replicate model.dimension 0 ∧
      r.model = model.id ∧ r.workspaceId = wid ∧
      ∃ sk ∈ skippedFiles, r.path = sk.path := by
  intro r hr
  unfold recordSkippedFiles at hr
  obtain ⟨sk, hsk, heq⟩ := List.mem_filterMap.mp hr
  cases hlk : fileMapLookup allFiles sk.path with
  | none => rw [hlk] at heq; cases heq
  | some fi =>
    rw [hlk] at heq
    obtain rfl := Option.some.inj heq
    exact ⟨rfl, rfl, rfl, rfl, rfl, rfl, rfl, sk, hsk, rfl⟩

/- ===================== C4: line-number invariant ===================== -/

/-- C4 counterexample: `recordSkippedFiles` persists the skipped marker
with `metadata.startLine = 0` (and `endLine = 0`), so the claimed
invariant `1 ≤ start_line` fails on skipped-marker rows. -/
theorem skippedMarkerStartLineZero :
    ((recordSkippedFiles "w" { id := "m", dimension := 2 } [c4Skipped] [c4File]).map
      (fun r => (r.metadata.startLine, r.metadata.endLine))) = [(0, 0)] ∧
    ¬((1 : Int) ≤ 0) := by
  exact ⟨by rfl, by decide⟩

/-- C4 (amended): every row persisted by an update run either was
already in the store, or is a skipped-marker row with
`start_line = end_line = 0`, or is a chunk row with `skipped` unset and
`1 ≤ start_line ≤ end_line`. Thus `start_line ≤ end_line` holds for
every persisted row, while `1 ≤ start_line` holds for every non-skipped
row and fails exactly on the skipped markers. -/
theorem updateRowLineNumbers (env : UpdateEnv) (st : List EmbeddingRow)
    (r : EmbeddingRow) (hr : r ∈ (updateVaultIndexModel env st).1) :
    r ∈ st ∨
    (r.metadata.skipped = some true ∧ r.metadata.startLine = 0 ∧ r.metadata.endLine = 0) ∨
    (r.metadata.skipped = none ∧ 1 ≤ r.metadata.startLine ∧
      r.metadata.startLine ≤ r.metadata.endLine) := by
  unfold updateVaultIndexModel at hr
  by_cases hfe : (updateFilesToIndex env st).isEmpty = true
  · simp only [hfe, if_true] at hr
    exact Or.inl (storeAfterPreDelete_subset env st r hr)
  · simp only [hfe, Bool.false_eq_true, if_false] at hr
    by_cases hcc : isCanc env.cancelAt 0 = true
    · simp only [hcc, if_true] at hr
      exact Or.inl (storeAfterPreDelete_subset env st r hr)
    · simp only [hcc, Bool.false_eq_true, if_false] at hr
      have hmarker : ∀ x ∈ recordSkippedFiles env.wid env.model
          (prepareContentChunks env.process env.split env.chunkSize
            (diskFilesFor env (updateFilesToIndex env st))).skippedFiles
          (updateFilesToIndex env st),
          x.metadata.skipped = some true ∧ x.metadata.startLine = 0 ∧
            x.metadata.endLine = 0 := by
        intro x hx
        have h := recordSkippedFiles_shape env.wid env.model _ _ x hx
        exact ⟨h.1, h.2.1, h.2.2.1⟩
      by_cases hce : (prepareContentChunks env.process env.split env.chunkSize
          (diskFilesFor env (updateFilesToIndex env st))).contentChunks.isEmpty = true
      · simp only [hce, if_true] at hr
        have hr2 : r ∈ insertVectors (storeAfterPreDelete env st)
            (recordSkippedFiles env.wid env.model
              (prepareContentChunks env.process env.split env.chunkSize
                (diskFilesFor env (updateFilesToIndex env st))).skippedFiles
              (updateFilesToIndex env st)) := by
          split at hr
          · exact hr
          · exact hr
        rcases List.mem_append.mp hr2 with h | h
        · exact Or.inl (storeAfterPreDelete_subset env st r h)
        · exact Or.inr (Or.inl (hmarker r h))
      · simp only [hce, Bool.false_eq_true, if_false] at hr
        obtain ⟨extra, hst, hmem⟩ := processBatchesModel_store env.cancelAt env.wid
          env.model env.outcomesFor
          (toBatches 10 (prepareContentChunks env.process env.split env.chunkSize
            (diskFilesFor env (updateFilesToIndex env st))).contentChunks.enum) 1
          (insertVectors (storeAfterPreDelete env st)
            (recordSkippedFiles env.wid env.model
              (prepareContentChunks env.process env.split env.chunkSize
                (diskFilesFor env (updateFilesToIndex env st))).skippedFiles
              (updateFilesToIndex env st))) []
        have hr2 : r ∈ insertVectors (storeAfterPreDelete env st)
            (recordSkippedFiles env.wid env.model
              (prepareContentChunks env.process env.split env.chunkSize
                (diskFilesFor env (updateFilesToIndex env st))).skippedFiles
              (updateFilesToIndex env st)) ++ extra := by
          rw [← hst]
          unfold processEmbeddingsModel at hr
          rcases hout : (processBatchesModel env.cancelAt env.wid env.model env.outcomesFor
            (toBatches 10 (prepareContentChunks env.process env.split env.chunkSize
              (diskFilesFor env (updateFilesToIndex env st))).contentChunks.enum) 1
            (insertVectors (storeAfterPreDelete env st)
              (recordSkippedFiles env.wid env.model
                (prepareContentChunks env.process env.split env.chunkSize
                  (diskFilesFor env (updateFilesToIndex env st))).skippedFiles
                (updateFilesToIndex env st))) []) with ⟨tr, st3, out⟩
          rw [hout] at hr
          cases out <;> simpa using hr
        rcases List.mem_append.mp hr2 with h | h
        · rcases List.mem_append.mp h with h2 | h2
          · exact Or.inl (storeAfterPreDelete_subset env st r h2)
          · exact Or.inr (Or.inl (hmarker r h2))
        · obtain ⟨p, hp, v, rfl⟩ := hmem r h
          have hp2 : p ∈ (prepareContentChunks env.process env.split env.chunkSize
              (diskFilesFor env (updateFilesToIndex env st))).contentChunks.enum := by
            rw [← toBatches_flatten 10 (by norm_num)
              (prepareContentChunks env.process env.split env.chunkSize
                (diskFilesFor env (updateFilesToIndex env st))).contentChunks.enum]
            exact hp
          have hp3 : p.2 ∈ (prepareContentChunks env.process env.split env.chunkSize
              (diskFilesFor env (updateFilesToIndex env st))).contentChunks := by
            have := List.mem_map_of_mem Prod.snd hp2
            rwa [List.enum_map_snd] at this
          have hfacts := prepareContentChunks_chunk_facts env.process env.split
            env.chunkSize (diskFilesFor env (updateFilesToIndex env st)) p.2 hp3
          exact Or.inr (Or.inr ⟨hfacts.2.1, hfacts.2.2.1, hfacts.2.2.2⟩)

/-- C4 witness: the concrete run on `c6Env` persists the marker row, and
the amended theorem applied to it yields the skipped-marker
classification with start and end line 0. -/
theorem updateRowLineNumbers_witness :
    c6Marker ∈ (updateVaultIndexModel c6Env []).1 ∧
    (c6Marker ∈ ([] : List EmbeddingRow) ∨
      (c6Marker.metadata.skipped = some true ∧ c6Marker.metadata.startLine = 0 ∧
        c6Marker.metadata.endLine = 0) ∨
      (c6Marker.metadata.skipped = none ∧ 1 ≤ c6Marker.metadata.startLine ∧
        c6Marker.metadata.startLine ≤ c6Marker.metadata.endLine)) := by
  have hmem : c6Marker ∈ (updateVaultIndexModel c6Env []).1 := by
    rw [show (updateVaultIndexModel c6Env []).1 = [c6Marker] from rfl]
    exact List.mem_singleton_self _
  exact ⟨hmem, updateRowLineNumbers c6Env [] c6Marker hmem⟩

/- ===================== Lemmas: cancellation monotonicity (C5) ===================== -/

theorem isCanc_mono (cancelAt : Option Nat) (q q' : Nat)
    (h : isCanc cancelAt q = true) (hq : q ≤ q') : isCanc cancelAt q' = true := by
  cases cancelAt with
  | none => simp [isCanc] at h
  | some c =>
    simp only [isCanc, decide_eq_true_iff] at h ⊢
    omega

theorem backOffChunk_facts (cancelAt : Option Nat) (outcomes : Nat → AttemptResult) :
    ∀ (fuel attempt q : Nat),
      noInsert (backOffChunk cancelAt outcomes attempt q fuel).1 = true ∧
      q ≤ (backOffChunk cancelAt outcomes attempt q fuel).2.1 ∧
      (hasTrueCheck (backOffChunk cancelAt outcomes attempt q fuel).1 = true →
        isCanc cancelAt (backOffChunk cancelAt outcomes attempt q fuel).2.1 = true) := by
  intro fuel
  induction fuel with
  | zero =>
    intro attempt q
    refine ⟨rfl, le_refl q, ?_⟩
    intro h
    simp [backOffChunk, hasTrueCheck] at h
  | succ fuel ih =>
    intro attempt q
    unfold backOffChunk
    by_cases hv : isCanc cancelAt q = true
    · simp only [hv, if_true]
      exact ⟨rfl, by omega, fun _ => isCanc_mono _ q (q + 1) hv (by omega)⟩
    · simp only [hv, Bool.false_eq_true, if_false]
      cases houtc : outcomes attempt with
      | ok vec =>
        by_cases hv2 : isCanc cancelAt (q + 1) = true
        · simp only [hv2, if_true]
          exact ⟨rfl, by omega, fun _ => isCanc_mono _ (q + 1) (q + 2) hv2 (by omega)⟩
        · simp only [hv2, Bool.false_eq_true, if_false]
          refine ⟨rfl, by omega, ?_⟩
          intro h
          simp [hasTrueCheck, isTrueCheck, hv, hv2] at h
      | err e =>
        by_cases hretry : (attempt < 5 && retryPredicate e) = true
        · simp only [hretry, if_true]
          obtain ⟨h1, h2, h3⟩ := ih (attempt + 1) (q + 1)
          refine ⟨?_, by omega, ?_⟩
          · simp only [noInsert, List.all_cons, isInsertEvent, Bool.not_false, Bool.true_and]
            exact h1
          · intro h
            simp only [hasTrueCheck, List.any_cons, isTrueCheck, hv, Bool.false_or] at h
            exact h3 h
        · simp only [hretry, Bool.false_eq_true, if_false]
          refine ⟨rfl, by omega, ?_⟩
          intro h
          simp [hasTrueCheck, isTrueCheck, hv] at h

theorem processChunkModel_facts (cancelAt : Option Nat) (wid : String)
    (model : EmbeddingModelClient) (outcomes : Nat → AttemptResult)
    (c : ContentChunk) (q : Nat) :
    noInsert (processChunkModel cancelAt wid model outcomes c q).1 = true ∧
    q ≤ (processChunkModel cancelAt wid model outcomes c q).2.1 ∧
    (hasTrueCheck (processChunkModel cancelAt wid model outcomes c q).1 = true →
      isCanc cancelAt (processChunkModel cancelAt wid model outcomes c q).2.1 = true) := by
  unfold processChunkModel
  by_cases h0 : isCanc cancelAt q = true
  · simp only [h0, if_true]
    exact ⟨rfl, by omega, fun _ => isCanc_mono _ q (q + 1) h0 (by omega)⟩
  · simp only [h0, Bool.false_eq_true, if_false]
    obtain ⟨h1, h2, h3⟩ := backOffChunk_facts cancelAt outcomes 5 1 (q + 1)
    rcases hB : backOffChunk cancelAt outcomes 1 (q + 1) 5 with ⟨evts, qq, res⟩
    rw [hB] at h1 h2 h3
    dsimp only at h1 h2 h3
    cases res with
    | vec v =>
      dsimp only
      refine ⟨?_, by omega, ?_⟩
      · simp only [noInsert, List.all_cons, isInsertEvent, Bool.not_false, Bool.true_and]
        exact h1
      · intro h
        simp only [hasTrueCheck, List.any_cons, isTrueCheck, h0, Bool.false_or] at h
        exact h3 h
    | canc =>
      dsimp only
      refine ⟨?_, by omega, ?_⟩
      · simp only [noInsert, List.all_cons, isInsertEvent, Bool.not_false, Bool.true_and]
        exact h1
      · intro h
        simp only [hasTrueCheck, List.any_cons, isTrueCheck, h0, Bool.false_or] at h
        exact h3 h
    | failedRes m =>
      dsimp only
      refine ⟨?_, by omega, ?_⟩
      · simp only [noInsert, List.all_cons, isInsertEvent, Bool.not_false, Bool.true_and]
        exact h1
      · intro h
        simp only [hasTrueCheck, List.any_cons, isTrueCheck, h0, Bool.false_or] at h
        exact h3 h

theorem processBatchChunks_facts (cancelAt : Option Nat) (wid : String)
    (model : EmbeddingModelClient) (outcomesFor : Nat → Nat → AttemptResult)
    (b : List (Nat × ContentChunk)) :
    ∀ q : Nat,
      noInsert (processBatchChunks cancelAt wid model outcomesFor b q).1 = true ∧
      q ≤ (processBatchChunks cancelAt wid model outcomesFor b q).2.1 ∧
      (hasTrueCheck (processBatchChunks cancelAt wid model outcomesFor b q).1 = true →
        isCanc cancelAt (processBatchChunks cancelAt wid model outcomesFor b q).2.1 = true) := by
  induction b with
  | nil =>
    intro q
    refine ⟨rfl, le_refl q, ?_⟩
    intro h
    simp [processBatchChunks, hasTrueCheck] at h
  | cons pc rest ih =>
    intro q
    obtain ⟨idx, c⟩ := pc
    unfold processBatchChunks
    obtain ⟨hc1, hc2, hc3⟩ := processChunkModel_facts cancelAt wid model (outcomesFor idx) c q
    rcases h1 : processChunkModel cancelAt wid model (outcomesFor idx) c q with
      ⟨evts, q1, rowOpt, failOpt⟩
    rw [h1] at hc1 hc2 hc3
    dsimp only at hc1 hc2 hc3 ⊢
    obtain ⟨hr1, hr2, hr3⟩ := ih q1
    rcases h2 : processBatchChunks cancelAt wid model outcomesFor rest q1 with
      ⟨evts2, q2, rows, fails⟩
    rw [h2] at hr1 hr2 hr3
    dsimp only at hr1 hr2 hr3 ⊢
    refine ⟨?_, by omega, ?_⟩
    · simp only [noInsert, List.all_append] at hc1 hr1 ⊢
      exact (Bool.and_eq_true _ _).mpr ⟨hc1, hr1⟩
    · intro h
      simp only [hasTrueCheck, List.any_append, Bool.or_eq_true] at h
      rcases h with h | h
      · exact isCanc_mono _ q1 q2 (hc3 h) hr2
      · exact hr3 h

/- ===================== Lemmas: dropped-after-cancel predicate (C5) ===================== -/

theorem observedCancel_imp_hasTrue (l : List PEEvent)
    (h : observedCancel l = true) : hasTrueCheck l = true := by
  simp only [observedCancel, List.any_eq_true] at h
  obtain ⟨e, he, hp⟩ := h
  simp only [hasTrueCheck, List.any_eq_true]
  refine ⟨e, he, ?_⟩
  cases e with
  | check k v =>
    simp only [Bool.and_eq_true] at hp
    simpa [isTrueCheck] using hp.1
  | insertEv rows => simp at hp

theorem droppedAfterCancel_of_noInsert (l : List PEEvent)
    (h : noInsert l = true) : droppedAfterCancel l = true := by
  induction l with
  | nil => rfl
  | cons e t ih =>
    simp only [noInsert, List.all_cons, Bool.and_eq_true] at h
    cases e with
    | check k v =>
      unfold droppedAfterCancel
      by_cases hrel : (v && relevantKind k) = true
      · simp only [hrel, if_true]
        exact h.2
      · simp only [hrel, Bool.false_eq_true, if_false]
        exact ih h.2
    | insertEv rows => simp [isInsertEvent] at h

theorem droppedAfterCancel_of_noObserved (l : List PEEvent)
    (h : observedCancel l = false) : droppedAfterCancel l = true := by
  induction l with
  | nil => rfl
  | cons e t ih =>
    cases e with
    | check k v =>
      simp only [observedCancel, List.any_cons, Bool.or_eq_false_iff] at h
      unfold droppedAfterCancel
      simp only [h.1, Bool.false_eq_true, if_false]
      exact ih (by simpa [observedCancel] using h.2)
    | insertEv rows =>
      simp only [observedCancel, List.any_cons, Bool.or_eq_false_iff] at h
      unfold droppedAfterCancel
      exact ih (by simpa [observedCancel] using h.2)

theorem droppedAfterCancel_append (A B : List PEEvent)
    (hA : observedCancel A = false) (hB : droppedAfterCancel B = true) :
    droppedAfterCancel (A ++ B) = true := by
  induction A with
  | nil => simpa using hB
  | cons e t ih =>
    simp only [List.cons_append]
    cases e with
    | check k v =>
      simp only [observedCancel, List.any_cons, Bool.or_eq_false_iff] at hA
      unfold droppedAfterCancel
      simp only [hA.1, Bool.false_eq_true, if_false]
      exact ih (by simpa [observedCancel] using hA.2)
    | insertEv rows =>
      simp only [observedCancel, List.any_cons, Bool.or_eq_false_iff] at hA
      unfold droppedAfterCancel
      exact ih (by simpa [observedCancel] using hA.2)

theorem droppedAfterCancel_cons_false (k : CheckKind) (t : List PEEvent) :
    droppedAfterCancel (PEEvent.check k false :: t) = droppedAfterCancel t := by
  conv_lhs => unfold droppedAfterCancel
  simp

theorem droppedAfterCancel_cons_insert (rows : List EmbeddingRow) (t : List PEEvent) :
    droppedAfterCancel (PEEvent.insertEv rows :: t) = droppedAfterCancel t := rfl

theorem observedCancel_cons_check (k : CheckKind) (v : Bool) (t : List PEEvent) :
    observedCancel (PEEvent.check k v :: t) = ((v && relevantKind k) || observedCancel t) := rfl

theorem observedCancel_cons_insert (rows : List EmbeddingRow) (t : List PEEvent) :
    observedCancel (PEEvent.insertEv rows :: t) = observedCancel t := by
  simp [observedCancel]

theorem observedCancel_append (A B : List PEEvent) :
    observedCancel (A ++ B) = (observedCancel A || observedCancel B) :=
  List.any_append

theorem observedCancel_nil : observedCancel [] = false := rfl

theorem processBatchesModel_cancelSafety (cancelAt : Option Nat) (wid : String)
    (model : EmbeddingModelClient) (outcomesFor : Nat → Nat → AttemptResult)
    (batches : List (List (Nat × ContentChunk))) :
    ∀ (q : Nat) (store : List EmbeddingRow) (fails : List String),
      droppedAfterCancel
        (processBatchesModel cancelAt wid model outcomesFor batches q store fails).1 = true ∧
      (observedCancel
          (processBatchesModel cancelAt wid model outcomesFor batches q store fails).1 = true →
        (processBatchesModel cancelAt wid model outcomesFor batches q store fails).2.2 =
          PEOutcome.cancelled) := by
  induction batches with
  | nil =>
    intro q store fails
    constructor
    · rfl
    · intro h
      simp [processBatchesModel, observedCancel] at h
  | cons b rest ih =>
    intro q store fails
    unfold processBatchesModel
    by_cases hv : isCanc cancelAt q = true
    · simp only [hv, if_true]
      refine ⟨by decide, fun _ => ?_⟩
      first
      | rfl
      | trivial
    · simp only [hv, Bool.false_eq_true, if_false]
      obtain ⟨hb1, hb2, hb3⟩ := processBatchChunks_facts cancelAt wid model outcomesFor b (q + 1)
      rcases hrb : processBatchChunks cancelAt wid model outcomesFor b (q + 1) with
        ⟨evts, q1, rows, newFails⟩
      rw [hrb] at hb1 hb2 hb3
      dsimp only at hb1 hb2 hb3 ⊢
      by_cases hv2 : isCanc cancelAt q1 = true
      · simp only [hv2, if_true]
        constructor
        · apply droppedAfterCancel_of_noInsert
          simp only [noInsert, List.all_cons, List.all_append, isInsertEvent, Bool.not_false,
            Bool.true_and, List.all_nil, Bool.and_true]
          simpa [noInsert] using hb1
        · intro _
          first
          | rfl
          | trivial
      · simp only [hv2, Bool.false_eq_true, if_false]
        have hNoTrue : hasTrueCheck evts = false := by
          cases hT : hasTrueCheck evts with
          | false => rfl
          | true => exact absurd (hb3 hT) hv2
        have hNoObs : observedCancel evts = false := by
          cases hO : observedCancel evts with
          | false => rfl
          | true =>
            rw [observedCancel_imp_hasTrue evts hO] at hNoTrue
            cases hNoTrue
        by_cases hre : rows.isEmpty = true
        · simp only [hre, if_true]
          by_cases hv3 : isCanc cancelAt (q1 + 1) = true
          · simp only [hv3, if_true]
            constructor
            · apply droppedAfterCancel_of_noObserved
              simp [observedCancel_append, observedCancel_cons_check, observedCancel_nil,
                hNoObs, relevantKind]
            · intro _
              first
              | rfl
              | trivial
          · simp only [hv3, Bool.false_eq_true, if_false]
            obtain ⟨ihD, ihO⟩ := ih (q1 + 2) store (fails ++ newFails)
            constructor
            · apply droppedAfterCancel_append _ _ ?_ ?_
              · simp [observedCancel_append, observedCancel_cons_check, observedCancel_nil,
                  hNoObs, relevantKind]
              · rw [droppedAfterCancel_cons_false]
                exact ihD
            · intro h
              simp only [observedCancel_append, observedCancel_cons_check, observedCancel_nil,
                hNoObs, relevantKind, Bool.and_false, Bool.and_true, Bool.false_and,
                Bool.or_false, Bool.false_or] at h
              exact ihO h
        · simp only [hre, Bool.false_eq_true, if_false]
          by_cases hv3 : isCanc cancelAt (q1 + 1) = true
          · simp only [hv3, if_true]
            constructor
            · apply droppedAfterCancel_of_noObserved
              simp [observedCancel_append, observedCancel_cons_check, observedCancel_cons_insert,
                observedCancel_nil, hNoObs, relevantKind]
            · intro _
              first
              | rfl
              | trivial
          · simp only [hv3, Bool.false_eq_true, if_false]
            obtain ⟨ihD, ihO⟩ := ih (q1 + 2) (insertVectors store rows) (fails ++ newFails)
            constructor
            · apply droppedAfterCancel_append _ _ ?_ ?_
              · simp [observedCancel_append, observedCancel_cons_check,
                  observedCancel_cons_insert, observedCancel_nil, hNoObs, relevantKind]
              · rw [droppedAfterCancel_cons_false]
                exact ihD
            · intro h
              simp only [observedCancel_append, observedCancel_cons_check,
                observedCancel_cons_insert, observedCancel_nil, hNoObs, relevantKind,
                Bool.and_false, Bool.and_true, Bool.false_and, Bool.or_false,
                Bool.false_or] at h
              exact ihO h

/-- C5: in the embedding loop the cancel token is read before each batch,
before each embedding call inside the batch (also at each chunk task
entry and after each provider call), after the batch resolves, and after
the insert; whenever a read at one of the three checkpoint kinds named
by the claim (pre-batch, pre-call, post-batch) observes cancellation, no
insert happens at or after that point — the pending partial batch is
dropped — and the loop returns with wasCancelled = true. -/
theorem processEmbeddings_cancelSafety (cancelAt : Option Nat) (wid : String)
    (model : EmbeddingModelClient) (outcomesFor : Nat → Nat → AttemptResult)
    (contentChunks : List ContentChunk) (q0 : Nat) (store : List EmbeddingRow) :
    droppedAfterCancel
      (processEmbeddingsModel cancelAt wid model outcomesFor contentChunks q0 store).1 = true ∧
    (observedCancel
        (processEmbeddingsModel cancelAt wid model outcomesFor contentChunks q0 store).1 = true →
      (processEmbeddingsModel cancelAt wid model outcomesFor contentChunks q0 store).2.2 =
        PEOutcome.cancelled) :=
  processBatchesModel_cancelSafety cancelAt wid model outcomesFor
    (toBatches 10 contentChunks.enum) q0 store []

/-- C5 witness: with the token already cancelled at the first read, the
loop on one chunk observes cancellation at the pre-batch checkpoint,
inserts nothing, and returns cancelled. -/
theorem processEmbeddings_cancelSafety_witness :
    observedCancel
      (processEmbeddingsModel (some 0) "w" c5Model c5Outcomes [c5Chunk] 0 []).1 = true ∧
    (processEmbeddingsModel (some 0) "w" c5Model c5Outcomes [c5Chunk] 0 []).2.2 =
      PEOutcome.cancelled := by
  have h : observedCancel
      (processEmbeddingsModel (some 0) "w" c5Model c5Outcomes [c5Chunk] 0 []).1 = true := by
    rfl
  exact ⟨h, (processEmbeddings_cancelSafety (some 0) "w" c5Model c5Outcomes
    [c5Chunk] 0 []).2 h⟩

/- ===================== Lemmas: skipped files (C6) ===================== -/

theorem readFiles_skipped_subset (process : String → String) :
    ∀ (files : List DiskFile), ∀ sk ∈ (readFiles process files).2.1,
      sk.path ∈ files.map (fun f => f.path) := by
  intro files
  induction files with
  | nil => intro sk h; simp [readFiles] at h
  | cons f rest ih =>
    intro sk hsk
    unfold readFiles at hsk
    rcases hr : readFiles process rest with ⟨fl, skl, fcl⟩
    rw [hr] at hsk
    dsimp only at hsk
    simp only [List.map_cons, List.mem_cons]
    by_cases hread : (!f.readable) = true
    · simp only [hread, if_true] at hsk
      exact Or.inr (ih sk (by rw [hr]; exact hsk))
    · simp only [hread, Bool.false_eq_true, if_false] at hsk
      by_cases he : ((jsTrim (process f.content)).length == 0) = true
      · simp only [he, if_true] at hsk
        rcases List.mem_cons.mp hsk with rfl | hsk2
        · exact Or.inl rfl
        · exact Or.inr (ih sk (by rw [hr]; exact hsk2))
      · simp only [he, Bool.false_eq_true, if_false] at hsk
        exact Or.inr (ih sk (by rw [hr]; exact hsk))

theorem readFiles_content_facts (process : String → String) :
    ∀ (files : List DiskFile), ∀ fc ∈ (readFiles process files).2.2,
      ∃ f ∈ files, fc.path = f.path ∧ f.readable = true ∧
        ¬((jsTrim (process f.content)).length = 0) := by
  intro files
  induction files with
  | nil => intro fc h; simp [readFiles] at h
  | cons f rest ih =>
    intro fc hfc
    unfold readFiles at hfc
    rcases hr : readFiles process rest with ⟨fl, skl, fcl⟩
    rw [hr] at hfc
    dsimp only at hfc
    by_cases hread : (!f.readable) = true
    · simp only [hread, if_true] at hfc
      obtain ⟨g, hg, hrest⟩ := ih fc (by rw [hr]; exact hfc)
      exact ⟨g, List.mem_cons_of_mem f hg, hrest⟩
    · simp only [hread, Bool.false_eq_true, if_false] at hfc
      by_cases he : ((jsTrim (process f.content)).length == 0) = true
      · simp only [he, if_true] at hfc
        obtain ⟨g, hg, hrest⟩ := ih fc (by rw [hr]; exact hfc)
        exact ⟨g, List.mem_cons_of_mem f hg, hrest⟩
      · simp only [he, Bool.false_eq_true, if_false] at hfc
        rcases List.mem_cons.mp hfc with rfl | hfc2
        · refine ⟨f, List.mem_cons_self f rest, rfl, ?_, ?_⟩
          · cases hfr : f.readable with
            | true => rfl
            | false => exact absurd (by simp [hfr]) hread
          · intro hz
            exact he (by simp [hz])
        · obtain ⟨g, hg, hrest⟩ := ih fc (by rw [hr]; exact hfc2)
          exact ⟨g, List.mem_cons_of_mem f hg, hrest⟩

theorem readFiles_skipped_filter (process : String → String) (p : String) :
    ∀ (files : List DiskFile), (files.map (fun f => f.path)).Nodup →
      ∀ d ∈ files, d.path = p → d.readable = true →
        (jsTrim (process d.content)).length = 0 →
        (readFiles process files).2.1.filter (fun sk => sk.path == p) = [skRecord d] := by
  intro files
  induction files with
  | nil => intro _ d hd; exact absurd hd (List.not_mem_nil d)
  | cons f rest ih =>
    intro hnd d hd hp hre he
    have hnd2 : (rest.map (fun f => f.path)).Nodup := by
      simp only [List.map_cons, List.nodup_cons] at hnd
      exact hnd.2
    have hfp : f.path ∉ rest.map (fun f2 => f2.path) := by
      simp only [List.map_cons, List.nodup_cons] at hnd
      exact hnd.1
    rcases hrec : readFiles process rest with ⟨fl, skl, fcl⟩
    rcases List.mem_cons.mp hd with rfl | hdr
    · unfold readFiles
      rw [hrec]
      dsimp only
      rw [show (!d.readable) = false by simp [hre]]
      simp only [Bool.false_eq_true, if_false]
      rw [show ((jsTrim (process d.content)).length == 0) = true by simp [he]]
      simp only [if_true]
      have hnil : skl.filter (fun sk => sk.path == p) = [] := by
        apply List.filter_eq_nil_iff.mpr
        intro sk hsk hbeq
        have hmem := readFiles_skipped_subset process rest sk (by rw [hrec]; exact hsk)
        rw [beq_iff_eq] at hbeq
        rw [hbeq, ← hp] at hmem
        exact hfp hmem
      show (skRecord d :: skl).filter (fun sk => sk.path == p) = [skRecord d]
      simp only [List.filter_cons]
      rw [show ((skRecord d).path == p) = true by simp [skRecord, hp]]
      simp only [if_true]
      rw [hnil]
    · have hfne : (f.path == p) = false := by
        simp only [beq_eq_false_iff_ne, ne_eq]
        intro hcontra
        apply hfp
        rw [hcontra, ← hp]
        exact List.mem_map_of_mem _ hdr
      unfold readFiles
      rw [hrec]
      dsimp only
      by_cases hread : (!f.readable) = true
      · simp only [hread, if_true]
        have := ih hnd2 d hdr hp hre he
        rw [hrec] at this
        exact this
      · simp only [hread, Bool.false_eq_true, if_false]
        by_cases hef : ((jsTrim (process f.content)).length == 0) = true
        · simp only [hef, if_true]
          have hgoal := ih hnd2 d hdr hp hre he
          rw [hrec] at hgoal
          show (skRecord f :: skl).filter (fun sk => sk.path == p) = [skRecord d]
          simp only [List.filter_cons]
          rw [show ((skRecord f).path == p) = false by simpa [skRecord] using hfne]
          simp only [Bool.false_eq_true, if_false]
          exact hgoal
        · simp only [hef, Bool.false_eq_true, if_false]
          have := ih hnd2 d hdr hp hre he
          rw [hrec] at this
          exact this

theorem fileMapLookup_isSome (allFiles : List FileInfo) (p : String)
    (hp : p ∈ allFiles.map (fun f => f.path)) :
    ∃ fi, fileMapLookup allFiles p = some fi := by
  unfold fileMapLookup
  obtain ⟨f, hf, rfl⟩ := List.mem_map.mp hp
  have hex : ∃ x ∈ allFiles.reverse, (x.path == f.path) = true :=
    ⟨f, List.mem_reverse.mpr hf, by simp⟩
  exact Option.isSome_iff_exists.mp (List.find?_isSome.mpr hex)

theorem recordSkippedFiles_filter_eq (wid : String) (model : EmbeddingModelClient)
    (allFiles : List FileInfo) (p : String) (fi : FileInfo)
    (hlk : fileMapLookup allFiles p = some fi) :
    ∀ (skipped : List SkippedFile),
      (recordSkippedFiles wid model skipped allFiles).filter
        (fun r => rowInScope wid model.id r && r.path == p) =
      (skipped.filter (fun sk => sk.path == p)).map
        (fun sk => mkSkippedRow wid model sk fi) := by
  intro skipped
  induction skipped with
  | nil => rfl
  | cons sk rest ih =>
    unfold recordSkippedFiles
    unfold recordSkippedFiles at ih
    simp only [List.filterMap_cons]
    by_cases hp : sk.path = p
    · rw [hp, hlk]
      dsimp only
      simp only [List.filter_cons]
      rw [show (rowInScope wid model.id (mkSkippedRow wid model sk fi) &&
          (mkSkippedRow wid model sk fi).path == p) = true by
        simp [rowInScope, mkSkippedRow, hp]]
      rw [show (sk.path == p) = true by simp [hp]]
      simp only [if_true, List.map_cons]
      rw [ih]
    · cases hlk2 : fileMapLookup allFiles sk.path with
      | none =>
        dsimp only
        simp only [List.filter_cons]
        rw [show (sk.path == p) = false by simp [hp]]
        simp only [Bool.false_eq_true, if_false]
        exact ih
      | some fi2 =>
        dsimp only
        simp only [List.filter_cons]
        rw [show (rowInScope wid model.id (mkSkippedRow wid model sk fi2) &&
            (mkSkippedRow wid model sk fi2).path == p) = false by
          simp [rowInScope, mkSkippedRow, hp]]
        rw [show (sk.path == p) = false by simp [hp]]
        simp only [Bool.false_eq_true, if_false]
        exact ih


theorem storeAfterPreDelete_no_selected (env : UpdateEnv) (st : List EmbeddingRow)
    (p : String) (hp : p ∈ (updateFilesToIndex env st).map (fun f => f.path)) :
    rowsForFile (storeAfterPreDelete env st) env.wid env.model.id p = [] := by
  unfold rowsForFile
  apply List.filter_eq_nil_iff.mpr
  intro r hr hcond
  simp only [Bool.and_eq_true, beq_iff_eq] at hcond
  have hscope : rowInScope env.wid env.model.id r = true := hcond.1
  have hpath : r.path = p := hcond.2
  unfold storeAfterPreDelete at hr
  unfold updateFilesToIndex at hp
  by_cases hra : env.reindexAll = true
  · simp only [hra, if_true] at hr
    unfold clearAllVectors at hr
    have := (List.mem_filter.mp hr).2
    rw [hscope] at this
    simp at this
  · simp only [hra, Bool.false_eq_true, if_false] at hr hp
    unfold deleteVectorsForMultipleFiles at hr
    have hnonempty : ((getFilesToIndexModel (env.disk.map toFileInfo)
        (pruneDeletedFiles env st) env.wid env.model).map (fun f => f.path)).isEmpty = false := by
      cases hq : ((getFilesToIndexModel (env.disk.map toFileInfo)
          (pruneDeletedFiles env st) env.wid env.model).map (fun f => f.path)).isEmpty with
      | false => rfl
      | true =>
        rw [List.isEmpty_iff] at hq
        rw [hq] at hp
        exact absurd hp (List.not_mem_nil p)
    rw [if_neg (by simp [hnonempty])] at hr
    have hmem := (List.mem_filter.mp hr).2
    have hcontra : (rowInScope env.wid env.model.id r &&
        ((getFilesToIndexModel (env.disk.map toFileInfo)
          (pruneDeletedFiles env st) env.wid env.model).map
            (fun f => f.path)).contains r.path) = true := by
      rw [hscope, hpath]
      simp only [Bool.true_and]
      exact List.elem_iff.mpr hp
    rw [hcontra] at hmem
    simp at hmem

theorem updateVaultIndexModel_store_decomp (env : UpdateEnv) (st : List EmbeddingRow)
    (hfe : (updateFilesToIndex env st).isEmpty = false)
    (hcc : isCanc env.cancelAt 0 = false) :
    ∃ extra,
      (updateVaultIndexModel env st).1 =
        (storeAfterPreDelete env st ++
          recordSkippedFiles env.wid env.model
            (prepareContentChunks env.process env.split env.chunkSize
              (diskFilesFor env (updateFilesToIndex env st))).skippedFiles
            (updateFilesToIndex env st)) ++ extra ∧
      ∀ r ∈ extra, ∃ p ∈ (prepareContentChunks env.process env.split env.chunkSize
          (diskFilesFor env (updateFilesToIndex env st))).contentChunks.enum,
        ∃ v, r = mkChunkRow env.wid env.model p.2 v := by
  unfold updateVaultIndexModel
  simp only [hfe, Bool.false_eq_true, if_false, hcc]
  by_cases hce : (prepareContentChunks env.process env.split env.chunkSize
      (diskFilesFor env (updateFilesToIndex env st))).contentChunks.isEmpty = true
  · simp only [hce, if_true]
    refine ⟨[], ?_, by simp⟩
    split
    · simp [insertVectors]
    · simp [insertVectors]
  · simp only [hce, Bool.false_eq_true, if_false]
    obtain ⟨extra, hst, hmem⟩ := processBatchesModel_store env.cancelAt env.wid
      env.model env.outcomesFor
      (toBatches 10 (prepareContentChunks env.process env.split env.chunkSize
        (diskFilesFor env (updateFilesToIndex env st))).contentChunks.enum) 1
      (insertVectors (storeAfterPreDelete env st)
        (recordSkippedFiles env.wid env.model
          (prepareContentChunks env.process env.split env.chunkSize
            (diskFilesFor env (updateFilesToIndex env st))).skippedFiles
          (updateFilesToIndex env st))) []
    refine ⟨extra, ?_, ?_⟩
    · unfold processEmbeddingsModel
      rcases hout : (processBatchesModel env.cancelAt env.wid env.model env.outcomesFor
        (toBatches 10 (prepareContentChunks env.process env.split env.chunkSize
          (diskFilesFor env (updateFilesToIndex env st))).contentChunks.enum) 1
        (insertVectors (storeAfterPreDelete env st)
          (recordSkippedFiles env.wid env.model
            (prepareContentChunks env.process env.split env.chunkSize
              (diskFilesFor env (updateFilesToIndex env st))).skippedFiles
            (updateFilesToIndex env st))) []) with ⟨tr, st3, out⟩
      rw [hout] at hst
      dsimp only at hst
      cases out <;> simpa [insertVectors] using hst
    · intro r hr
      obtain ⟨p, hp, v, hv⟩ := hmem r hr
      refine ⟨p, ?_, v, hv⟩
      rw [← toBatches_flatten 10 (by norm_num)
        (prepareContentChunks env.process env.split env.chunkSize
          (diskFilesFor env (updateFilesToIndex env st))).contentChunks.enum]
      exact hp

/-- C6: during an update run, a read file whose content is empty after
extraction and sanitization (trimmed extracted text has length 0) ends
up with exactly one persisted row for its path in the workspace+model
partition: the marker row with content "[SKIPPED: No indexable content]",
a zero vector of the model dimension, and metadata.skipped = true
(part 1); and a similarity search never returns a row whose
metadata.skipped is true, on either column branch (part 2). -/
theorem skippedFileMarkerAndSearchExclusion :
    (∀ (env : UpdateEnv) (st : List EmbeddingRow) (d : DiskFile),
      ((diskFilesFor env (updateFilesToIndex env st)).map (fun f => f.path)).Nodup →
      d ∈ diskFilesFor env (updateFilesToIndex env st) →
      d.path ∈ (updateFilesToIndex env st).map (fun f => f.path) →
      d.readable = true →
      (jsTrim (env.process d.content)).length = 0 →
      isCanc env.cancelAt 0 = false →
      ∃ r, rowsForFile (updateVaultIndexModel env st).1 env.wid env.model.id d.path = [r] ∧
        r.content = "[SKIPPED: No indexable content]" ∧
        r.embedding = List.replicate env.model.dimension 0 ∧
        r.metadata.skipped = some true) ∧
    (∀ (columnIsVector : Bool) (dist : List ℝ → ℝ) (wid : String) (q : List ℝ)
      (model : EmbeddingModelClient) (minSim : ℝ) (limit : Nat)
      (scopeFiles : Option (List String)) (st : List EmbeddingRow),
      (okResults (performSimilaritySearch columnIsVector dist wid q model minSim limit
        scopeFiles st)).all (fun p => !(p.1.metadata.skipped == some true)) = true) := by
  constructor
  · intro env st d hnd hdF hdP hread hempty hcanc
    have hfe : (updateFilesToIndex env st).isEmpty = false := by
      cases hq : (updateFilesToIndex env st).isEmpty with
      | false => rfl
      | true =>
        rw [List.isEmpty_iff] at hq
        rw [hq] at hdP
        simp at hdP
    obtain ⟨extra, hst, hmem⟩ := updateVaultIndexModel_store_decomp env st hfe hcanc
    obtain ⟨fi, hfi⟩ := fileMapLookup_isSome (updateFilesToIndex env st) d.path hdP
    refine ⟨mkSkippedRow env.wid env.model (skRecord d) fi, ?_, rfl, rfl, rfl⟩
    rw [hst]
    unfold rowsForFile
    rw [List.filter_append, List.filter_append]
    have h1 := storeAfterPreDelete_no_selected env st d.path hdP
    unfold rowsForFile at h1
    rw [h1]
    have h2 : (recordSkippedFiles env.wid env.model
        (prepareContentChunks env.process env.split env.chunkSize
          (diskFilesFor env (updateFilesToIndex env st))).skippedFiles
        (updateFilesToIndex env st)).filter
        (fun r => rowInScope env.wid env.model.id r && r.path == d.path) =
        [mkSkippedRow env.wid env.model (skRecord d) fi] := by
      rw [recordSkippedFiles_filter_eq env.wid env.model (updateFilesToIndex env st)
        d.path fi hfi]
      have hsk := readFiles_skipped_filter env.process d.path
        (diskFilesFor env (updateFilesToIndex env st)) hnd d hdF rfl hread hempty
      rw [show (prepareContentChunks env.process env.split env.chunkSize
          (diskFilesFor env (updateFilesToIndex env st))).skippedFiles =
        (readFiles env.process (diskFilesFor env (updateFilesToIndex env st))).2.1 from rfl]
      rw [hsk]
      simp
    rw [h2]
    have h3 : extra.filter
        (fun r => rowInScope env.wid env.model.id r && r.path == d.path) = [] := by
      apply List.filter_eq_nil_iff.mpr
      intro r hr hcond
      obtain ⟨p, hp, v, rfl⟩ := hmem r hr
      simp only [mkChunkRow, Bool.and_eq_true, beq_iff_eq] at hcond
      have hpp : p.2.path = d.path := hcond.2
      have hchunk : p.2 ∈ (prepareContentChunks env.process env.split env.chunkSize
          (diskFilesFor env (updateFilesToIndex env st))).contentChunks := by
        have hm := List.mem_map_of_mem Prod.snd hp
        rw [List.enum_map_snd] at hm
        exact hm
      obtain ⟨⟨fc, hfc, hfcpath⟩, _, _, _⟩ := prepareContentChunks_chunk_facts env.process
        env.split env.chunkSize (diskFilesFor env (updateFilesToIndex env st)) p.2 hchunk
      obtain ⟨f, hf, hfcpath2, hfread, hfnonempty⟩ := readFiles_content_facts env.process
        (diskFilesFor env (updateFilesToIndex env st)) fc hfc
      have hfd : f = d := by
        apply List.inj_on_of_nodup_map hnd hf hdF
        show f.path = d.path
        rw [← hfcpath2, ← hfcpath]
        exact hpp
      rw [hfd] at hfnonempty
      exact hfnonempty hempty
    rw [h3]
    simp
  · intro columnIsVector dist wid q model minSim limit scopeFiles st
    apply List.all_eq_true.mpr
    intro pr hpr
    show (!(pr.1.metadata.skipped == some true)) = true
    have hw := searchResult_satisfies_where columnIsVector dist wid q model minSim limit
      scopeFiles st pr hpr
    unfold whereConditions at hw
    simp only [Bool.and_eq_true] at hw
    have hskip : skippedCondition pr.1.metadata = true := hw.1.2
    unfold skippedCondition at hskip
    cases hm : pr.1.metadata.skipped with
    | none => simp
    | some b =>
      cases b with
      | true =>
        rw [hm] at hskip
        simp at hskip
      | false => simp

/-- Witness for the skipped-file claim: the concrete one-file run on
`c6Env` (file `e.md` trims to empty), plus a concrete search on the
JSONB branch. -/
theorem skippedFileMarkerAndSearchExclusion_witness :
    (∃ r, rowsForFile (updateVaultIndexModel c6Env []).1 c6Env.wid c6Env.model.id
        c6Disk.path = [r] ∧
      r.content = "[SKIPPED: No indexable content]" ∧
      r.embedding = List.replicate c6Env.model.dimension 0 ∧
      r.metadata.skipped = some true) ∧
    (okResults (performSimilaritySearch false (fun _ => 0) "w" [] c6Env.model 0 5
      none [c6Marker])).all (fun p => !(p.1.metadata.skipped == some true)) = true :=
  ⟨skippedFileMarkerAndSearchExclusion.1 c6Env [] c6Disk (by decide) (by decide)
      (by decide) (by decide) (by decide) (by decide),
    skippedFileMarkerAndSearchExclusion.2 false (fun _ => 0) "w" [] c6Env.model 0 5
      none [c6Marker]⟩
